import Mathlib

/-!
A shallow embedding of the JSON validator in `src/src/json_validator.py`
(class `JsonValidator`, with error types from `src/src/json_validator_errors.py`),
together with a grammar-level specification of JSON text and theorems checking
the natural-language specification's claims against the embedded code.

Modelling notes, applying to every definition in the `JsonValidator` namespace:

* The validator reads a file one character at a time (`self._file.read(1)`).
  The embedding replaces the file handle by the list of characters not yet
  read (`St.input`); `_token` becomes `St.token : Option Char`, where `none`
  models Python's empty-string end-of-input sentinel (which compares unequal
  to every single character and is falsy, exactly like `none` under the
  comparisons used here).

* Python's unbounded recursion is modelled with an explicit fuel parameter on
  every recursive routine; `Res.out` is the fuel-exhaustion outcome.  Fuel is
  a pure embedding artifact: the top-level run supplies fuel that provably
  suffices for the inputs treated by the theorems below.  Keeping all
  recursion structural makes every concrete run kernel-computable.

* `str.isdigit()` is modelled as ASCII `Char.isDigit`.  Python's `isdigit`
  also accepts non-ASCII Unicode digits; no claim below involves such
  characters, and on ASCII the two agree.

* `open_file`'s filename pre-checks (`FILE_MISSING_ERROR`, `FILE_TYPE_ERROR`,
  `FILE_NOT_FOUND`) and `UnicodeDecodeError` handling concern the caller-side
  file system interface; the embedding starts from a successfully opened,
  already-decoded character stream, which is the situation every claim below
  is about.
-/

namespace JsonValidator

/-- Error codes, from `src/src/json_validator_errors.py` (`class ErrorCode`). -/
inductive ErrorCode where
  | SUCCESS | INVALID_JSON
  | FILE_NOT_FOUND | FILE_READ_ERROR | FILE_TYPE_ERROR | FILE_MISSING_ERROR
  | STRING_HEX_ERROR | STRING_ESCAPE_ERROR | STRING_EOF_ERROR | STRING_CHARACTER_ERROR
  | NUMBER_EOF_ERROR | NUMBER_DIGIT_ERROR | NUMBER_EXPONENT_ERROR | NUMBER_LEADING_ZERO_ERROR
  | VALUE_EOF_ERROR | VALUE_CHARACTER_ERROR
  | ARRAY_EOF_ERROR | ARRAY_CHARACTER_ERROR
  | OBJECT_EOF_ERROR | OBJECT_KEY_ERROR | OBJECT_SEPARATOR_ERROR | OBJECT_VALUE_ERROR
  | OBJECT_CLOSE_ERROR
  | INVALID_START_ERROR | EOF_CHARACTER_ERROR | UNRECOGNIZED_ERROR
  deriving DecidableEq, Repr

/-- The data carried by a raised `JSONValidatorError`: message, error code and
the line/column recorded at the moment `_raise_error` runs. -/
structure Err where
  message : String
  code : ErrorCode
  line : Nat
  column : Nat
  deriving DecidableEq, Repr

/-- The mutable scanner state of a `JsonValidator` instance: the unread rest of
the file (`input`), the current one-character token (`none` models the empty
end-of-file token), and the `_line`/`_column` counters. -/
structure St where
  input : List Char
  token : Option Char
  line : Nat
  column : Nat
  deriving DecidableEq, Repr

/-- Outcome of running a validator routine: normal return with the updated
state, a raised `JSONValidatorError` propagating out, or fuel exhaustion
(`out`, the embedding artifact for Python's unbounded recursion). -/
inductive Res where
  | ok : St → Res
  | err : Err → Res
  | out : Res
  deriving DecidableEq, Repr

/-- Sequencing: run `f` on the state if the previous step returned normally;
a raised error or fuel exhaustion propagates (Python exception propagation). -/
def Res.bind (r : Res) (f : St → Res) : Res :=
  match r with
  | .ok st => f st
  | r => r

/-- Whether the run returned normally. -/
def Res.isOk : Res → Bool
  | .ok _ => true
  | _ => false

/-- The raised error, if the run raised one. -/
def Res.errInfo? : Res → Option Err
  | .err e => some e
  | _ => none

/-- The raised error's code, if the run raised one. -/
def Res.errCode? : Res → Option ErrorCode
  | .err e => some e.code
  | _ => none

/-- The raised error's (line, column), if the run raised one. -/
def Res.errPos? : Res → Option (Nat × Nat)
  | .err e => some (e.line, e.column)
  | _ => none

/-- `JsonValidator._raise_error`: build the error from the message, the code
and the current line and column. -/
def raise_error (message : String) (code : ErrorCode) (st : St) : Res :=
  .err ⟨message, code, st.line, st.column⟩

/-- Python's `token.isdigit()` on the current token: `False` on the empty
end-of-file token, ASCII digit test otherwise (see the modelling notes). -/
def tokenIsDigit : Option Char → Bool
  | some c => c.isDigit
  | none => false

/-- `JsonValidator._get_char`: increment the column counter first (so that a
subsequent error reports the fetched character's own column), then read one
character; at end of input set the empty token and, only when `error_if_eof`
was supplied, raise that call site's specific error. -/
def get_char (error_if_eof : Option (String × ErrorCode)) (st : St) : Res :=
  let st := { st with column := st.column + 1 }
  match st.input with
  | c :: rest => .ok { st with input := rest, token := some c }
  | [] =>
    let st := { st with token := none }
    match error_if_eof with
    | some (m, code) => raise_error m code st
    | none => .ok st

/-- `JsonValidator._whitespace`, with fuel.  The source writes the space case
as an `if` whose body recurses and then falls through to the tab `if`; since
the recursive call only returns once the token is no longer whitespace, that
fall-through test can never fire, and the four cases are rendered as one
`if`/`else if` chain.  Position rules: a space costs one column; a tab costs
one column from `_get_char` plus three extra; a carriage return resets the
column to 1; a line feed advances the line and resets the column to 1. -/
def whitespace : Nat → St → Res
  | 0, _ => .out
  | fuel + 1, st =>
    if st.token = some ' ' then
      Res.bind (get_char none st) fun st1 => whitespace fuel st1
    else if st.token = some '\t' then
      Res.bind (get_char none st) fun st1 =>
        whitespace fuel { st1 with column := st1.column + 3 }
    else if st.token = some '\r' then
      Res.bind (get_char none st) fun st1 =>
        whitespace fuel { st1 with column := 1 }
    else if st.token = some '\n' then
      Res.bind (get_char none st) fun st1 =>
        whitespace fuel { st1 with line := st1.line + 1, column := 1 }
    else .ok st

/-- The hex digits accepted after `\u`, in the source's order (`hex_char` in
`_string_hex`). -/
def hex_char : List Char := "1234567890abcdefABCDEF".toList

/-- One unrolling counter for the `for _ in range(4)` loop of `_string_hex`:
fetch a character (end of file raises the hex error) and check it is a hex
digit.  The membership test `self._token in hex_char` runs on a token that the
preceding fetch guarantees non-empty, so it is a character membership test. -/
def string_hex_loop : Nat → St → Res
  | 0, st => .ok st
  | n + 1, st =>
    Res.bind (get_char (some ("end of file reached in string hex, must have 4 hex digits after \\u",
        .STRING_HEX_ERROR)) st) fun st1 =>
      if (match st1.token with | some c => hex_char.contains c | none => true) = false then
        raise_error "invalid hex digit after \\u in string" .STRING_HEX_ERROR st1
      else string_hex_loop n st1

/-- `JsonValidator._string_hex`: the four characters after `\u` must be hex
digits, each fetched and checked individually. -/
def string_hex (st : St) : Res := string_hex_loop 4 st

/-- `JsonValidator._string_backslash`: fetch the escape character (end of file
raises the escape error); the eight single-character escapes return, `u` runs
the hex check, anything else raises the escape error. -/
def string_backslash (st : St) : Res :=
  Res.bind (get_char (some ("end of file instead of escape character in string",
      .STRING_ESCAPE_ERROR)) st) fun st1 =>
    if st1.token = some '"' ∨ st1.token = some '\\' ∨ st1.token = some '/' ∨
        st1.token = some 'b' ∨ st1.token = some 'f' ∨ st1.token = some 'n' ∨
        st1.token = some 'r' ∨ st1.token = some 't' then
      .ok st1
    else if st1.token = some 'u' then
      string_hex st1
    else
      raise_error "invalid escape character in string" .STRING_ESCAPE_ERROR st1

/-- `JsonValidator._string_char`, with fuel: fetch the next character (end of
file mid-string raises the string-EOF error); a backslash runs escape
handling and continues; a raw tab or line feed raises the string-character
error; a quote ends the string; anything else continues. -/
def string_char : Nat → St → Res
  | 0, _ => .out
  | fuel + 1, st =>
    Res.bind (get_char (some ("file ended in middle of string", .STRING_EOF_ERROR)) st) fun st1 =>
      if st1.token = some '\\' then
        Res.bind (string_backslash st1) fun st2 => string_char fuel st2
      else if st1.token = some '\t' then
        raise_error "invalid tab character in string" .STRING_CHARACTER_ERROR st1
      else if st1.token = some '\n' then
        raise_error "invalid newline character in string" .STRING_CHARACTER_ERROR st1
      else if st1.token = some '"' then
        .ok st1
      else
        string_char fuel st1

/-- `JsonValidator._string`: scan the string body up to the closing quote,
then fetch once more to move past it. -/
def string (fuel : Nat) (st : St) : Res :=
  Res.bind (string_char fuel st) fun st1 => get_char none st1

/-- `JsonValidator._digit`, with fuel: fetch and keep fetching while the token
is a digit (end of file is allowed here; `_number`'s callers check it). -/
def digit : Nat → St → Res
  | 0, _ => .out
  | fuel + 1, st =>
    Res.bind (get_char none st) fun st1 =>
      if tokenIsDigit st1.token then digit fuel st1 else .ok st1

/-- `JsonValidator._decimal`: after the decimal point there must be at least
one digit (end of file raises the number-EOF error, a non-digit the digit
error), then consume the remaining digits. -/
def decimal (fuel : Nat) (st : St) : Res :=
  Res.bind (get_char (some ("end of file reached in decimal", .NUMBER_EOF_ERROR)) st) fun st1 =>
    if tokenIsDigit st1.token = false then
      raise_error "non digit in decimal" .NUMBER_DIGIT_ERROR st1
    else digit fuel st1

/-- `JsonValidator._exponent`: after `e`/`E` an optional sign, then at least
one digit (end of file raises the exponent error at either fetch; a non-digit
raises the exponent error). -/
def exponent (fuel : Nat) (st : St) : Res :=
  Res.bind (get_char (some ("end of file reached in exponent", .NUMBER_EXPONENT_ERROR)) st) fun st1 =>
    Res.bind (if st1.token = some '-' ∨ st1.token = some '+' then
        get_char (some ("end of file reached in exponent", .NUMBER_EXPONENT_ERROR)) st1
      else .ok st1) fun st2 =>
      if tokenIsDigit st2.token then digit fuel st2
      else raise_error "invalid exponent" .NUMBER_EXPONENT_ERROR st2

/-- The trailing two statements of `JsonValidator._number` (optional decimal
part, optional exponent part), split out as a named function so the proofs
below can reuse one lemma across the integer-part cases. -/
def number_fracexp (fuel : Nat) (st : St) : Res :=
  Res.bind (if st.token = some '.' then decimal fuel st else .ok st) fun st1 =>
    if st1.token = some 'e' ∨ st1.token = some 'E' then exponent fuel st1 else .ok st1

/-- `JsonValidator._number`: optional `-` (end of file right after raises the
number-EOF error); a leading `0` must not be followed by a digit (leading-zero
error, reported at the second digit's column); otherwise consume digits; a
`-` followed by a non-digit raises the digit error; then the optional decimal
and exponent parts. -/
def number (fuel : Nat) (st : St) : Res :=
  Res.bind (if st.token = some '-' then
      get_char (some ("end of file reached in number", .NUMBER_EOF_ERROR)) st
    else .ok st) fun st1 =>
  Res.bind (if st1.token = some '0' then
      Res.bind (get_char none st1) fun st2 =>
        if tokenIsDigit st2.token then
          raise_error "leading 0 in number" .NUMBER_LEADING_ZERO_ERROR st2
        else .ok st2
    else if tokenIsDigit st1.token then
      digit fuel st1
    else
      raise_error "\"-\" followed by non digit in number" .NUMBER_DIGIT_ERROR st1) fun st2 =>
  number_fracexp fuel st2

/-- The `for c in "..."` loops of `_true_value`/`_false_value`/`_null_value`:
compare each expected character against the token (mismatch raises the
value-character error with the literal's message), then fetch the next
character (end of file raises the value-EOF error with the literal's
message). -/
def literal_loop (eofMsg badMsg : String) : List Char → St → Res
  | [], st => .ok st
  | c :: cs, st =>
    if st.token ≠ some c then
      raise_error badMsg .VALUE_CHARACTER_ERROR st
    else
      Res.bind (get_char (some (eofMsg, .VALUE_EOF_ERROR)) st) fun st1 =>
        literal_loop eofMsg badMsg cs st1

/-- `JsonValidator._true_value`: fetch past the `t` (end of file raises the
value-EOF error) and match `rue`. -/
def true_value (st : St) : Res :=
  Res.bind (get_char (some ("end of file reached in true value", .VALUE_EOF_ERROR)) st)
    (literal_loop "end of file reached in true value" "invalid character in true value"
      ['r', 'u', 'e'])

/-- `JsonValidator._false_value`: fetch past the `f` and match `alse`. -/
def false_value (st : St) : Res :=
  Res.bind (get_char (some ("end of file reached in false value", .VALUE_EOF_ERROR)) st)
    (literal_loop "end of file reached in false value" "invalid character in false value"
      ['a', 'l', 's', 'e'])

/-- `JsonValidator._null_value`: fetch past the `n` and match `ull`. -/
def null_value (st : St) : Res :=
  Res.bind (get_char (some ("end of file reached in null value", .VALUE_EOF_ERROR)) st)
    (literal_loop "end of file reached in null value" "invalid character in null value"
      ['u', 'l', 'l'])

mutual

/-- `JsonValidator._value`, with fuel: skip whitespace, dispatch on the token
(`"` string, `-`/digit number, `{` object, `[` array, `t`/`f`/`n` literal,
anything else — including end of file — raises the value-character error),
then skip trailing whitespace. -/
def value : Nat → St → Res
  | 0, _ => .out
  | fuel + 1, st =>
    Res.bind (whitespace fuel st) fun st1 =>
    Res.bind (
      if st1.token = some '"' then string fuel st1
      else if st1.token = some '-' ∨ tokenIsDigit st1.token then number fuel st1
      else if st1.token = some '{' then json_object fuel st1
      else if st1.token = some '[' then array fuel st1
      else if st1.token = some 't' then true_value st1
      else if st1.token = some 'f' then false_value st1
      else if st1.token = some 'n' then null_value st1
      else raise_error "invalid character in value" .VALUE_CHARACTER_ERROR st1) fun st2 =>
    whitespace fuel st2

/-- `JsonValidator._value_list`, with fuel: a value, then, after a comma
(end of file right after the comma raises the array-EOF error), another value
list. -/
def value_list : Nat → St → Res
  | 0, _ => .out
  | fuel + 1, st =>
    Res.bind (value fuel st) fun st1 =>
      if st1.token = some ',' then
        Res.bind (get_char (some ("end of file reached in array", .ARRAY_EOF_ERROR)) st1)
          fun st2 => value_list fuel st2
      else .ok st1

/-- `JsonValidator._array`, with fuel: fetch past `[` (end of file raises the
array-EOF error), skip whitespace; `]` closes an empty array (fetching past
it); otherwise a value list followed by `]` (fetching past it), else the
array-character error. -/
def array : Nat → St → Res
  | 0, _ => .out
  | fuel + 1, st =>
    Res.bind (get_char (some ("end of file reached in array", .ARRAY_EOF_ERROR)) st) fun st1 =>
    Res.bind (whitespace fuel st1) fun st2 =>
      if st2.token = some ']' then get_char none st2
      else
        Res.bind (value_list fuel st2) fun st3 =>
          if st3.token = some ']' then get_char none st3
          else raise_error "invalid character in array" .ARRAY_CHARACTER_ERROR st3

/-- `JsonValidator._key_value_list`, with fuel: the key must start with `"`
(else the object-key error) and is scanned as a string; after optional
whitespace a `:` (else the object-separator error); fetch past it (end of
file raises the object-EOF error), skip whitespace, parse the value; after a
comma (end of file raises the object-EOF error) skip whitespace and repeat. -/
def key_value_list : Nat → St → Res
  | 0, _ => .out
  | fuel + 1, st =>
    if st.token ≠ some '"' then
      raise_error "no quote to denote string before key" .OBJECT_KEY_ERROR st
    else
      Res.bind (string fuel st) fun st1 =>
      Res.bind (whitespace fuel st1) fun st2 =>
      if st2.token ≠ some ':' then
        raise_error "need colon between key and value" .OBJECT_SEPARATOR_ERROR st2
      else
        Res.bind (get_char (some ("end of file reached in object", .OBJECT_EOF_ERROR)) st2) fun st3 =>
        Res.bind (whitespace fuel st3) fun st4 =>
        Res.bind (value fuel st4) fun st5 =>
        if st5.token = some ',' then
          Res.bind (get_char (some ("end of file not valid after comma in object",
              .OBJECT_EOF_ERROR)) st5) fun st6 =>
          Res.bind (whitespace fuel st6) fun st7 =>
          key_value_list fuel st7
        else .ok st5

/-- `JsonValidator._json_object`, with fuel: fetch past `{` (end of file
raises the object-EOF error), skip whitespace; `}` closes an empty object
(fetching past it); otherwise a key-value list followed by `}` (fetching past
it), else the object-close error. -/
def json_object : Nat → St → Res
  | 0, _ => .out
  | fuel + 1, st =>
    Res.bind (get_char (some ("end of file reached in object", .OBJECT_EOF_ERROR)) st) fun st1 =>
    Res.bind (whitespace fuel st1) fun st2 =>
      if st2.token = some '}' then get_char none st2
      else
        Res.bind (key_value_list fuel st2) fun st3 =>
          if st3.token = some '}' then get_char none st3
          else raise_error "no closing bracket in object" .OBJECT_CLOSE_ERROR st3

end

/-- The state of a freshly constructed `JsonValidator` (`__init__`): no file
content loaded, empty token, line 0, column 0. -/
def initState : St := ⟨[], none, 0, 0⟩

/-- `JsonValidator.open_file` after a successful `open`: load the content,
set line 1 and column 0, and fetch the first character (bringing the column
to 1).  The `_token` left over from any earlier run is overwritten by that
fetch.  The filename pre-checks are caller-side (see the modelling notes). -/
def open_file (st : St) (content : List Char) : Res :=
  get_char none { st with input := content, line := 1, column := 0 }

/-- Fuel that provably suffices for every complete run analysed below. -/
def parse_fuel (content : List Char) : Nat := 3 * content.length + 8

/-- The body of `JsonValidator.validate_json` up to (but not including) the
final `close_file` call: open the file, skip whitespace, require `{` or `[`
(else the invalid-start error) and run that production, skip trailing
whitespace, and raise the trailing-content error if any token remains. -/
def validate_parse (st : St) (content : List Char) : Res :=
  Res.bind (open_file st content) fun st1 =>
  Res.bind (whitespace (parse_fuel content) st1) fun st2 =>
  Res.bind (
    if st2.token = some '{' then json_object (parse_fuel content) st2
    else if st2.token = some '[' then array (parse_fuel content) st2
    else raise_error "not object or array" .INVALID_START_ERROR st2) fun st3 =>
  Res.bind (whitespace (parse_fuel content) st3) fun st4 =>
    if st4.token.isSome then
      raise_error "invalid character after end of final object or array"
        .EOF_CHARACTER_ERROR st4
    else .ok st4

/-- `JsonValidator.close_file`: release the file handle. -/
def close_file (_fileOpen : Bool) : Bool := false

/-- `JsonValidator.validate_json`, together with the state of the file
resource when the call exits (`true` = still open).  `open_file` acquires the
handle; none of the scanning or grammar routines touches it (their state `St`
has no file field, just as only `open_file`/`close_file` access `_file` in
the source, `_get_char`'s reads consuming the already-loaded stream); the
only `close_file` call in the source is the last statement of
`validate_json`, so the handle is released exactly when the whole parse
returned normally, and a raised error propagates with the handle still
open. -/
def validate_json (st : St) (content : List Char) : Res × Bool :=
  let fileOpen := true
  match validate_parse st content with
  | .ok stFinal => (.ok stFinal, close_file fileOpen)
  | r => (r, fileOpen)

/-! ## Specification side

The grammar of JSON text, written from the specification's wording (§4.2 of
the spec, which matches RFC 8259): whitespace, strings with the eight
single-character escapes and `\u` + 4 hex digits, numbers with optional sign,
integer part without leading zeros, optional fraction and exponent, literal
keywords, arrays and objects of whitespace-padded elements, and a document
that is one top-level value padded by whitespace. -/

/-- A whitespace character: space, tab, carriage return or line feed. -/
def isWsB (c : Char) : Bool := c = ' ' || c = '\t' || c = '\r' || c = '\n'

/-- A run of whitespace characters. -/
inductive SWs : List Char → Prop where
  | nil : SWs []
  | cons : ∀ c s, isWsB c = true → SWs s → SWs (c :: s)

/-- The eight valid single-character escapes of the string production. -/
def escChars : List Char := ['"', '\\', '/', 'b', 'f', 'n', 'r', 't']

/-- The hex digits `0-9a-fA-F` allowed after `\u`. -/
def specHexChars : List Char := "0123456789abcdefABCDEF".toList

/-- One item of a string body: an unescaped character (which must not be a
quote, a backslash or a control character below U+0020), a single-character
escape, or `\u` followed by 4 hex digits. -/
inductive SStrItem : List Char → Prop where
  | unesc : ∀ c : Char, c ≠ '"' → c ≠ '\\' → 0x20 ≤ c.toNat → SStrItem [c]
  | esc : ∀ c, c ∈ escChars → SStrItem ['\\', c]
  | hex : ∀ h1 h2 h3 h4, h1 ∈ specHexChars → h2 ∈ specHexChars → h3 ∈ specHexChars →
      h4 ∈ specHexChars → SStrItem ['\\', 'u', h1, h2, h3, h4]

/-- A string body: a concatenation of string items. -/
inductive SStrBody : List Char → Prop where
  | nil : SStrBody []
  | cons : ∀ i s, SStrItem i → SStrBody s → SStrBody (i ++ s)

/-- A JSON string: a quoted string body. -/
def SStr (s : List Char) : Prop := ∃ b, SStrBody b ∧ s = '"' :: (b ++ ['"'])

/-- The integer part of a number: `0`, or a nonzero digit followed by
digits. -/
inductive SIntPart : List Char → Prop where
  | zero : SIntPart ['0']
  | nz : ∀ d ds, d.isDigit = true → d ≠ '0' → (∀ x ∈ ds, Char.isDigit x = true) →
      SIntPart (d :: ds)

/-- The optional fraction part: empty, or `.` followed by one-or-more
digits. -/
inductive SFracPart : List Char → Prop where
  | none : SFracPart []
  | mk : ∀ ds, ds ≠ [] → (∀ x ∈ ds, Char.isDigit x = true) → SFracPart ('.' :: ds)

/-- The optional exponent part: empty, or `e`/`E`, an optional sign, and
one-or-more digits. -/
inductive SExpPart : List Char → Prop where
  | none : SExpPart []
  | mk : ∀ e sg ds, (e = 'e' ∨ e = 'E') → (sg = [] ∨ sg = ['+'] ∨ sg = ['-']) →
      ds ≠ [] → (∀ x ∈ ds, Char.isDigit x = true) → SExpPart (e :: (sg ++ ds))

/-- A JSON number: optional `-`, integer part, optional fraction, optional
exponent. -/
inductive SNum : List Char → Prop where
  | mk : ∀ sg i f x, (sg = [] ∨ sg = ['-']) → SIntPart i → SFracPart f → SExpPart x →
      SNum (sg ++ (i ++ (f ++ x)))

mutual

/-- A JSON value: string, number, `true`, `false`, `null`, object or array. -/
inductive SVal : List Char → Prop where
  | str : ∀ s, SStr s → SVal s
  | num : ∀ s, SNum s → SVal s
  | tru : SVal ['t', 'r', 'u', 'e']
  | fls : SVal ['f', 'a', 'l', 's', 'e']
  | nul : SVal ['n', 'u', 'l', 'l']
  | obj : ∀ s, SObj s → SVal s
  | arr : ∀ s, SArr s → SVal s

/-- One element: a value padded by leading and trailing whitespace. -/
inductive SElem : List Char → Prop where
  | mk : ∀ w1 v w2, SWs w1 → SVal v → SWs w2 → SElem (w1 ++ (v ++ w2))

/-- A comma-separated, nonempty list of elements. -/
inductive SElems : List Char → Prop where
  | one : ∀ e, SElem e → SElems e
  | more : ∀ e es, SElem e → SElems es → SElems (e ++ (',' :: es))

/-- A comma-separated, nonempty list of object members; after the opening
brace's whitespace, each member is a string key, whitespace, `:`, and an
element, and a comma is followed by whitespace before the next key. -/
inductive SMembers : List Char → Prop where
  | one : ∀ k w2 e, SStr k → SWs w2 → SElem e → SMembers (k ++ (w2 ++ (':' :: e)))
  | more : ∀ k w2 e w3 ms, SStr k → SWs w2 → SElem e → SWs w3 → SMembers ms →
      SMembers (k ++ (w2 ++ (':' :: (e ++ (',' :: (w3 ++ ms))))))

/-- A JSON array: `[`, whitespace, `]`; or `[`, elements, `]`. -/
inductive SArr : List Char → Prop where
  | empty : ∀ w, SWs w → SArr ('[' :: (w ++ [']']))
  | nonempty : ∀ es, SElems es → SArr ('[' :: (es ++ [']']))

/-- A JSON object: `{`, whitespace, `}`; or `{`, whitespace, members, `}`. -/
inductive SObj : List Char → Prop where
  | empty : ∀ w, SWs w → SObj ('{' :: (w ++ ['}']))
  | nonempty : ∀ w1 ms, SWs w1 → SMembers ms → SObj ('{' :: (w1 ++ (ms ++ ['}'])))

end

/-- A JSON text as RFC 8259 defines it: `ws value ws`, any value allowed at
the top level. -/
def IsJsonTextRFC (s : List Char) : Prop :=
  ∃ w1 v w2, SWs w1 ∧ SVal v ∧ SWs w2 ∧ s = w1 ++ (v ++ w2)

/-- A JSON text whose top-level value is an object or an array (the only
top-level shape the validator's document production accepts). -/
def IsJsonDoc (s : List Char) : Prop :=
  ∃ w1 v w2, SWs w1 ∧ (SObj v ∨ SArr v) ∧ SWs w2 ∧ s = w1 ++ (v ++ w2)

/-! ## Position accounting

`stepPos p c` is the position of the character following `c` when `c` itself
sits at `p`, per the documented rules: a tab advances the column by 4 in
total, a carriage return resets the column to 1, a line feed advances the
line and resets the column to 1, and every other character advances the
column by 1. -/

/-- Position of the next character after consuming `c` at position `p`. -/
def stepPos (p : Nat × Nat) (c : Char) : Nat × Nat :=
  if c = '\t' then (p.1, p.2 + 4)
  else if c = '\r' then (p.1, 1)
  else if c = '\n' then (p.1 + 1, 1)
  else (p.1, p.2 + 1)

/-- Position of the character following the block `s`, when `s` starts at
position `p`. -/
def posAfter (p : Nat × Nat) (s : List Char) : Nat × Nat := s.foldl stepPos p

theorem posAfter_nil (p : Nat × Nat) : posAfter p [] = p := rfl

theorem posAfter_cons (p : Nat × Nat) (c : Char) (s : List Char) :
    posAfter p (c :: s) = posAfter (stepPos p c) s := rfl

theorem posAfter_append (p : Nat × Nat) (s t : List Char) :
    posAfter p (s ++ t) = posAfter (posAfter p s) t :=
  List.foldl_append ..

theorem stepPos_plain (p : Nat × Nat) (c : Char) (h1 : c ≠ '\t') (h2 : c ≠ '\r')
    (h3 : c ≠ '\n') : stepPos p c = (p.1, p.2 + 1) := by
  simp [stepPos, h1, h2, h3]

/-- Over a block free of tabs, carriage returns and line feeds, the position
advances by the block's length, staying on the same line. -/
theorem posAfter_plain (s : List Char) :
    (∀ c ∈ s, c ≠ '\t' ∧ c ≠ '\r' ∧ c ≠ '\n') →
    ∀ p : Nat × Nat, posAfter p s = (p.1, p.2 + s.length) := by
  induction s with
  | nil => intro _ p; rfl
  | cons c s ih =>
    intro h p
    have hc := h c (by simp)
    rw [posAfter_cons, stepPos_plain p c hc.1 hc.2.1 hc.2.2,
      ih (fun x hx => h x (by simp [hx]))]
    simp [List.length_cons]
    omega

/-! ## The scanner's state as a function of the unconsumed stream

Every state the validator reaches after its first fetch has the shape
`loaded r p`: the current token is the head of the not-yet-processed stream
`r` (with `none` past the end), the unread input is its tail, and `p` is the
current (line, column) — the position of that token. -/

/-- The scanner state holding the stream `r` (current token = head of `r`)
at position `p`. -/
def loaded (r : List Char) (p : Nat × Nat) : St := ⟨r.tail, r.head?, p.1, p.2⟩

theorem loaded_eq_mk (a : Char) (r : List Char) (p : Nat × Nat) :
    loaded (a :: r) p = ⟨r, some a, p.1, p.2⟩ := rfl

/-- Fetching with at least one character left succeeds and advances the
column by one. -/
theorem get_char_cons (e : Option (String × ErrorCode)) (x a : Char) (r : List Char)
    (p : Nat × Nat) :
    get_char e (loaded (x :: (a :: r)) p) = .ok (loaded (a :: r) (p.1, p.2 + 1)) := rfl

/-- Fetching with no eof policy never raises: at the end of the stream it
sets the empty token and advances the column by one. -/
theorem get_char_none (r : List Char) (p : Nat × Nat) :
    get_char none (loaded r p) = .ok (loaded r.tail (p.1, p.2 + 1)) := by
  cases r with
  | nil => rfl
  | cons x r => cases r <;> rfl

/-- Fetching at the end of the stream with an eof policy raises that policy's
error, at the incremented column. -/
theorem get_char_eof (m : String) (code : ErrorCode) (r : List Char) (p : Nat × Nat)
    (h : r.tail = []) :
    get_char (some (m, code)) (loaded r p) = .err ⟨m, code, p.1, p.2 + 1⟩ := by
  cases r with
  | nil => rfl
  | cons x r => cases r with
    | nil => rfl
    | cons a r => simp at h

/-- Fetching from an explicit state with a nonempty unread input. -/
theorem get_char_mk (e : Option (String × ErrorCode)) (a : Char) (r : List Char)
    (x : Option Char) (l c : Nat) :
    get_char e ⟨a :: r, x, l, c⟩ = .ok ⟨r, some a, l, c + 1⟩ := rfl

/-- Fetching from an explicit state with exhausted input and an eof policy. -/
theorem get_char_mk_eof (m : String) (code : ErrorCode) (x : Option Char) (l c : Nat) :
    get_char (some (m, code)) ⟨[], x, l, c⟩ = .err ⟨m, code, l, c + 1⟩ := rfl

/-- Fetching with no eof policy, from an explicit state: the result is the
state loaded with the unread input, one column later. -/
theorem get_char_none_mk (tl : List Char) (x : Option Char) (l c : Nat) :
    get_char none ⟨tl, x, l, c⟩ = .ok (loaded tl (l, c + 1)) := by
  cases tl <;> rfl

theorem Res.bind_ok (st : St) (f : St → Res) : Res.bind (.ok st) f = f st := rfl

theorem Res.bind_err (e : Err) (f : St → Res) : Res.bind (.err e) f = .err e := rfl

theorem isWsB_elim {c : Char} (h : isWsB c = true) :
    c = ' ' ∨ c = '\t' ∨ c = '\r' ∨ c = '\n' := by
  simp [isWsB] at h
  tauto

theorem isWsB_ne {c : Char} (h : isWsB c = false) :
    c ≠ ' ' ∧ c ≠ '\t' ∧ c ≠ '\r' ∧ c ≠ '\n' := by
  simp [isWsB] at h
  tauto

/-- One whitespace step on a space: the next character is fetched at the next
column. -/
theorem ws_step_space (f : Nat) (tl : List Char) (p : Nat × Nat) :
    whitespace (f + 1) (loaded (' ' :: tl) p) = whitespace f (loaded tl (p.1, p.2 + 1)) := by
  simp [whitespace, loaded_eq_mk, get_char_none_mk, Res.bind]

/-- One whitespace step on a tab: the next character's column is the tab's
column plus 4 (one from the fetch, three extra). -/
theorem ws_step_tab (f : Nat) (tl : List Char) (p : Nat × Nat) :
    whitespace (f + 1) (loaded ('\t' :: tl) p) = whitespace f (loaded tl (p.1, p.2 + 4)) := by
  have h : p.2 + 1 + 3 = p.2 + 4 := by omega
  simp [whitespace, loaded_eq_mk, get_char_none_mk, Res.bind, loaded, h]

/-- One whitespace step on a carriage return: the next character's column is
reset to 1. -/
theorem ws_step_cr (f : Nat) (tl : List Char) (p : Nat × Nat) :
    whitespace (f + 1) (loaded ('\r' :: tl) p) = whitespace f (loaded tl (p.1, 1)) := by
  simp [whitespace, loaded_eq_mk, get_char_none_mk, Res.bind, loaded]

/-- One whitespace step on a line feed: the line advances and the column is
reset to 1. -/
theorem ws_step_lf (f : Nat) (tl : List Char) (p : Nat × Nat) :
    whitespace (f + 1) (loaded ('\n' :: tl) p) = whitespace f (loaded tl (p.1 + 1, 1)) := by
  simp [whitespace, loaded_eq_mk, get_char_none_mk, Res.bind, loaded]

/-- Skipping a whitespace run consumes exactly the run, leaves the first
non-whitespace character (or end of input) as the token, and tracks its
position by the documented rules. -/
theorem whitespace_sound (w : List Char) (hw : SWs w) :
    ∀ (rest : List Char) (p : Nat × Nat) (fuel : Nat),
    (∀ y, rest.head? = some y → isWsB y = false) →
    w.length + 1 ≤ fuel →
    whitespace fuel (loaded (w ++ rest) p) = .ok (loaded rest (posAfter p w)) := by
  induction hw with
  | nil =>
    intro rest p fuel hrest hfuel
    obtain ⟨f, rfl⟩ : ∃ f, fuel = f + 1 := ⟨fuel - 1, by omega⟩
    cases rest with
    | nil => simp [whitespace, loaded, posAfter_nil]
    | cons y ys =>
      have hy := isWsB_ne (hrest y rfl)
      simp [whitespace, loaded_eq_mk, posAfter_nil, hy.1, hy.2.1, hy.2.2.1, hy.2.2.2]
  | cons c s hc _hs ih =>
    intro rest p fuel hrest hfuel
    obtain ⟨f, rfl⟩ : ∃ f, fuel = f + 1 := ⟨fuel - 1, by omega⟩
    have hf : s.length + 1 ≤ f := by
      simp [List.length_cons] at hfuel
      omega
    rcases isWsB_elim hc with rfl | rfl | rfl | rfl
    · rw [List.cons_append, ws_step_space, posAfter_cons,
        stepPos_plain p ' ' (by decide) (by decide) (by decide)]
      exact ih rest (p.1, p.2 + 1) f hrest hf
    · rw [List.cons_append, ws_step_tab, posAfter_cons]
      rw [show stepPos p '\t' = (p.1, p.2 + 4) from by simp [stepPos]]
      exact ih rest (p.1, p.2 + 4) f hrest hf
    · rw [List.cons_append, ws_step_cr, posAfter_cons]
      rw [show stepPos p '\r' = (p.1, 1) from by simp [stepPos]]
      exact ih rest (p.1, 1) f hrest hf
    · rw [List.cons_append, ws_step_lf, posAfter_cons]
      rw [show stepPos p '\n' = (p.1 + 1, 1) from by simp [stepPos]]
      exact ih rest (p.1 + 1, 1) f hrest hf

theorem ok_loaded_congr (r : List Char) (l c c' : Nat) (h : c = c') :
    Res.ok (loaded r (l, c)) = .ok (loaded r (l, c')) := by rw [h]

/-- The spec's hex digits are exactly the characters of the source's
`hex_char` list. -/
theorem hex_bridge {c : Char} (h : c ∈ specHexChars) : c ∈ hex_char := by
  fin_cases h <;> decide

/-- Scanning a valid escape character returns normally, past the escape
character. -/
theorem string_backslash_esc (ec : Char) (hec : ec ∈ escChars) (tl : List Char)
    (p : Nat × Nat) :
    string_backslash (loaded ('\\' :: (ec :: tl)) p) = .ok (loaded (ec :: tl) (p.1, p.2 + 1)) := by
  fin_cases hec <;> rfl

/-- Scanning `\u` with four hex digits returns normally, past the last
digit. -/
theorem string_backslash_u (h1 h2 h3 h4 : Char) (hh1 : h1 ∈ specHexChars)
    (hh2 : h2 ∈ specHexChars) (hh3 : h3 ∈ specHexChars) (hh4 : h4 ∈ specHexChars)
    (tl : List Char) (p : Nat × Nat) :
    string_backslash (loaded ('\\' :: ('u' :: (h1 :: (h2 :: (h3 :: (h4 :: tl)))))) p) =
      .ok (loaded (h4 :: tl) (p.1, p.2 + 5)) := by
  have c1 := hex_bridge hh1
  have c2 := hex_bridge hh2
  have c3 := hex_bridge hh3
  have c4 := hex_bridge hh4
  simp [string_backslash, string_hex, string_hex_loop, get_char_mk, Res.bind,
    loaded_eq_mk, c1, c2, c3, c4, St.mk.injEq]

/-- Scanning the rest of a valid string body consumes it and stops on the
closing quote. -/
theorem string_char_sound (b : List Char) (hb : SStrBody b) :
    ∀ (x : Char) (rest : List Char) (p : Nat × Nat) (fuel : Nat),
    b.length + 1 ≤ fuel →
    string_char fuel (loaded (x :: (b ++ ('"' :: rest))) p) =
      .ok (loaded ('"' :: rest) (p.1, p.2 + b.length + 1)) := by
  induction hb with
  | nil =>
    intro x rest p fuel hfuel
    obtain ⟨f, rfl⟩ : ∃ f, fuel = f + 1 := ⟨fuel - 1, by omega⟩
    simp [string_char, get_char_mk, Res.bind, loaded_eq_mk]
  | cons i s hi _hs ih =>
    intro x rest p fuel hfuel
    obtain ⟨f, rfl⟩ : ∃ f, fuel = f + 1 := ⟨fuel - 1, by omega⟩
    cases hi with
    | unesc c hq hbs hge =>
      have htab : c ≠ '\t' := by rintro rfl; exact absurd hge (by decide)
      have hlf : c ≠ '\n' := by rintro rfl; exact absurd hge (by decide)
      have hf : s.length + 1 ≤ f := by
        simp [List.length_append] at hfuel
        omega
      show string_char (f + 1) (loaded (x :: (c :: (s ++ ('"' :: rest)))) p) = _
      rw [show string_char (f + 1) (loaded (x :: (c :: (s ++ ('"' :: rest)))) p) =
          string_char f (loaded (c :: (s ++ ('"' :: rest))) (p.1, p.2 + 1)) from by
        simp [string_char, get_char_mk, Res.bind, loaded_eq_mk, hq, hbs, htab, hlf]]
      rw [ih c rest (p.1, p.2 + 1) f hf]
      exact ok_loaded_congr _ _ _ _ (by simp [List.length_append]; omega)
    | esc ec hec =>
      have hf : s.length + 1 ≤ f := by
        simp [List.length_append] at hfuel
        omega
      show string_char (f + 1) (loaded (x :: ('\\' :: (ec :: (s ++ ('"' :: rest))))) p) = _
      rw [show string_char (f + 1) (loaded (x :: ('\\' :: (ec :: (s ++ ('"' :: rest))))) p) =
          Res.bind (string_backslash (loaded ('\\' :: (ec :: (s ++ ('"' :: rest))))
            (p.1, p.2 + 1))) (fun st2 => string_char f st2) from by
        simp [string_char, get_char_mk, Res.bind, loaded_eq_mk]]
      rw [string_backslash_esc ec hec, Res.bind_ok]
      rw [ih ec rest (p.1, p.2 + 1 + 1) f hf]
      exact ok_loaded_congr _ _ _ _ (by simp [List.length_append]; omega)
    | hex h1 h2 h3 h4 hh1 hh2 hh3 hh4 =>
      have hf : s.length + 1 ≤ f := by
        simp [List.length_append] at hfuel
        omega
      show string_char (f + 1)
        (loaded (x :: ('\\' :: ('u' :: (h1 :: (h2 :: (h3 :: (h4 :: (s ++ ('"' :: rest))))))))) p) = _
      rw [show string_char (f + 1)
          (loaded (x :: ('\\' :: ('u' :: (h1 :: (h2 :: (h3 :: (h4 :: (s ++ ('"' :: rest))))))))) p) =
          Res.bind (string_backslash (loaded ('\\' :: ('u' :: (h1 :: (h2 :: (h3 :: (h4 ::
            (s ++ ('"' :: rest)))))))) (p.1, p.2 + 1))) (fun st2 => string_char f st2) from by
        simp [string_char, get_char_mk, Res.bind, loaded_eq_mk]]
      rw [string_backslash_u h1 h2 h3 h4 hh1 hh2 hh3 hh4, Res.bind_ok]
      rw [ih h4 rest (p.1, p.2 + 1 + 5) f hf]
      exact ok_loaded_congr _ _ _ _ (by simp [List.length_append]; omega)

/-- Scanning a valid string from its opening quote consumes it, including the
closing quote, and fetches the following character. -/
theorem string_sound_len (b : List Char) (hb : SStrBody b) (rest : List Char) (p : Nat × Nat)
    (fuel : Nat) (hfuel : b.length + 1 ≤ fuel) :
    string fuel (loaded ('"' :: (b ++ ('"' :: rest))) p) =
      .ok (loaded rest (p.1, p.2 + b.length + 2)) := by
  rw [string, string_char_sound b hb '"' rest p fuel hfuel, Res.bind_ok, get_char_none]
  exact ok_loaded_congr _ _ _ _ (by omega)

theorem isDigit_facts {c : Char} (h : c.isDigit = true) :
    c ≠ '-' ∧ c ≠ '+' ∧ c ≠ '.' ∧ c ≠ 'e' ∧ c ≠ 'E' ∧ c ≠ '"' := by
  refine ⟨?_, ?_, ?_, ?_, ?_, ?_⟩ <;> rintro rfl <;> exact absurd h (by decide)

theorem isDigit_not_ws {c : Char} (h : c.isDigit = true) : isWsB c = false := by
  simp only [isWsB, Bool.or_eq_false_iff, decide_eq_false_iff_not]
  refine ⟨⟨⟨?_, ?_⟩, ?_⟩, ?_⟩ <;> rintro rfl <;> exact absurd h (by decide)

/-- The digit loop consumes exactly the digits and stops with the following
character as the token. -/
theorem digit_sound (ds : List Char) :
    ∀ (tok : Option Char) (rest : List Char) (l c fuel : Nat),
    (∀ d ∈ ds, Char.isDigit d = true) →
    (∀ y, rest.head? = some y → Char.isDigit y = false) →
    ds.length + 1 ≤ fuel →
    digit fuel ⟨ds ++ rest, tok, l, c⟩ = .ok (loaded rest (l, c + ds.length + 1)) := by
  induction ds with
  | nil =>
    intro tok rest l c fuel _hds hrest hfuel
    obtain ⟨f, rfl⟩ : ∃ f, fuel = f + 1 := ⟨fuel - 1, by omega⟩
    cases rest with
    | nil => simp [digit, get_char_none_mk, Res.bind, loaded, tokenIsDigit]
    | cons y ys =>
      have hy := hrest y rfl
      simp [digit, get_char_none_mk, Res.bind, loaded_eq_mk, tokenIsDigit, hy]
  | cons d ds ih =>
    intro tok rest l c fuel hds hrest hfuel
    obtain ⟨f, rfl⟩ : ∃ f, fuel = f + 1 := ⟨fuel - 1, by omega⟩
    have hd : d.isDigit = true := hds d (by simp)
    have hf : ds.length + 1 ≤ f := by simp at hfuel; omega
    rw [show ((d :: ds) ++ rest : List Char) = d :: (ds ++ rest) from rfl]
    rw [show digit (f + 1) ⟨d :: (ds ++ rest), tok, l, c⟩ =
        digit f ⟨ds ++ rest, some d, l, c + 1⟩ from by
      simp [digit, get_char_mk, Res.bind, tokenIsDigit, hd]]
    rw [ih (some d) rest l (c + 1) f (fun e he => hds e (by simp [he])) hrest hf]
    exact ok_loaded_congr _ _ _ _ (by simp; omega)

/-- The decimal production consumes `.` followed by one-or-more digits. -/
theorem decimal_sound (d0 : Char) (ds rest : List Char) (tok : Option Char) (l c fuel : Nat)
    (hd0 : d0.isDigit = true) (hds : ∀ d ∈ ds, Char.isDigit d = true)
    (hrest : ∀ y, rest.head? = some y → Char.isDigit y = false)
    (hfuel : ds.length + 1 ≤ fuel) :
    decimal fuel ⟨(d0 :: ds) ++ rest, tok, l, c⟩ = .ok (loaded rest (l, c + ds.length + 2)) := by
  rw [show ((d0 :: ds) ++ rest : List Char) = d0 :: (ds ++ rest) from rfl]
  rw [show decimal fuel ⟨d0 :: (ds ++ rest), tok, l, c⟩ =
      digit fuel ⟨ds ++ rest, some d0, l, c + 1⟩ from by
    simp [decimal, get_char_mk, Res.bind, tokenIsDigit, hd0]]
  rw [digit_sound ds (some d0) rest l (c + 1) fuel hds hrest hfuel]
  exact ok_loaded_congr _ _ _ _ (by omega)

/-- The exponent production consumes the optional sign and one-or-more
digits. -/
theorem exponent_sound (sg ds rest : List Char) (tok : Option Char) (l c fuel : Nat)
    (hsg : sg = [] ∨ sg = ['+'] ∨ sg = ['-'])
    (hds : ds ≠ []) (hdig : ∀ d ∈ ds, Char.isDigit d = true)
    (hrest : ∀ y, rest.head? = some y → Char.isDigit y = false)
    (hfuel : ds.length + 1 ≤ fuel) :
    exponent fuel ⟨sg ++ (ds ++ rest), tok, l, c⟩ =
      .ok (loaded rest (l, c + sg.length + ds.length + 1)) := by
  obtain ⟨d0, ds', rfl⟩ : ∃ d0 ds', ds = d0 :: ds' := by
    cases ds with
    | nil => exact absurd rfl hds
    | cons a b => exact ⟨a, b, rfl⟩
  have hd0 : d0.isDigit = true := hdig d0 (by simp)
  have hd0m : d0 ≠ '-' := (isDigit_facts hd0).1
  have hd0p : d0 ≠ '+' := (isDigit_facts hd0).2.1
  have hds' : ∀ d ∈ ds', Char.isDigit d = true := fun d hd => hdig d (by simp [hd])
  have hf : ds'.length + 1 ≤ fuel := by simp at hfuel; omega
  rcases hsg with rfl | rfl | rfl
  · rw [show (([] : List Char) ++ ((d0 :: ds') ++ rest)) = d0 :: (ds' ++ rest) from rfl]
    rw [show exponent fuel ⟨d0 :: (ds' ++ rest), tok, l, c⟩ =
        digit fuel ⟨ds' ++ rest, some d0, l, c + 1⟩ from by
      simp [exponent, get_char_mk, Res.bind, tokenIsDigit, hd0, hd0m, hd0p]]
    rw [digit_sound ds' (some d0) rest l (c + 1) fuel hds' hrest hf]
    exact ok_loaded_congr _ _ _ _ (by simp; omega)
  · rw [show ((['+'] : List Char) ++ ((d0 :: ds') ++ rest)) = '+' :: (d0 :: (ds' ++ rest)) from rfl]
    rw [show exponent fuel ⟨'+' :: (d0 :: (ds' ++ rest)), tok, l, c⟩ =
        digit fuel ⟨ds' ++ rest, some d0, l, c + 2⟩ from by
      simp [exponent, get_char_mk, Res.bind, tokenIsDigit, hd0]]
    rw [digit_sound ds' (some d0) rest l (c + 2) fuel hds' hrest hf]
    exact ok_loaded_congr _ _ _ _ (by simp; omega)
  · rw [show ((['-'] : List Char) ++ ((d0 :: ds') ++ rest)) = '-' :: (d0 :: (ds' ++ rest)) from rfl]
    rw [show exponent fuel ⟨'-' :: (d0 :: (ds' ++ rest)), tok, l, c⟩ =
        digit fuel ⟨ds' ++ rest, some d0, l, c + 2⟩ from by
      simp [exponent, get_char_mk, Res.bind, tokenIsDigit, hd0]]
    rw [digit_sound ds' (some d0) rest l (c + 2) fuel hds' hrest hf]
    exact ok_loaded_congr _ _ _ _ (by simp; omega)

/-- The optional fraction and exponent tail of the number production. -/
theorem number_fracexp_sound (fr ex rest : List Char) (p : Nat × Nat) (fuel : Nat)
    (hf : SFracPart fr) (hx : SExpPart ex)
    (hrest : ∀ y, rest.head? = some y →
      Char.isDigit y = false ∧ y ≠ '.' ∧ y ≠ 'e' ∧ y ≠ 'E')
    (hfuel : fr.length + ex.length + 1 ≤ fuel) :
    number_fracexp fuel (loaded (fr ++ (ex ++ rest)) p) =
      .ok (loaded rest (p.1, p.2 + fr.length + ex.length)) := by
  have hxhead : ∀ y, (ex ++ rest).head? = some y → Char.isDigit y = false := by
    intro y hy
    cases hx with
    | none => exact (hrest y (by simpa using hy)).1
    | mk e sg eds he hsg hne hd =>
      simp at hy
      rcases he with rfl | rfl <;> cases hy <;> decide
  cases hf with
  | none =>
    cases hx with
    | none =>
      show number_fracexp fuel (loaded rest p) = .ok (loaded rest (p.1, p.2 + 0 + 0))
      cases rest with
      | nil => simp [number_fracexp, Res.bind, loaded]
      | cons y ys =>
        have hy := hrest y rfl
        simp [number_fracexp, Res.bind, loaded_eq_mk, hy.2.1, hy.2.2.1, hy.2.2.2]
    | mk e sg eds he hsg hne hdig =>
      show number_fracexp fuel (loaded (e :: ((sg ++ eds) ++ rest)) p) = _
      rw [show number_fracexp fuel (loaded (e :: ((sg ++ eds) ++ rest)) p) =
          exponent fuel ⟨(sg ++ eds) ++ rest, some e, p.1, p.2⟩ from by
        rcases he with rfl | rfl <;> simp [number_fracexp, Res.bind, loaded_eq_mk]]
      rw [List.append_assoc]
      rw [exponent_sound sg eds rest (some e) p.1 p.2 fuel hsg hne hdig
        (fun y hy => (hrest y hy).1) (by simp at hfuel; omega)]
      exact ok_loaded_congr _ _ _ _ (by simp; omega)
  | mk fds hne hdig =>
    obtain ⟨d0, ds', rfl⟩ : ∃ a b, fds = a :: b := by
      cases fds with
      | nil => exact absurd rfl hne
      | cons a b => exact ⟨a, b, rfl⟩
    have hd0 : d0.isDigit = true := hdig d0 (by simp)
    show number_fracexp fuel (loaded ('.' :: ((d0 :: ds') ++ (ex ++ rest))) p) = _
    rw [show number_fracexp fuel (loaded ('.' :: ((d0 :: ds') ++ (ex ++ rest))) p) =
        Res.bind (decimal fuel ⟨(d0 :: ds') ++ (ex ++ rest), some '.', p.1, p.2⟩)
          (fun st1 => if st1.token = some 'e' ∨ st1.token = some 'E' then
            exponent fuel st1 else .ok st1) from by
      simp [number_fracexp, Res.bind, loaded_eq_mk]]
    rw [decimal_sound d0 ds' (ex ++ rest) (some '.') p.1 p.2 fuel hd0
      (fun d hd => hdig d (by simp [hd])) hxhead (by simp at hfuel; omega)]
    simp only [Res.bind_ok]
    cases hx with
    | none =>
      show (if (loaded rest (p.1, p.2 + ds'.length + 2)).token = some 'e' ∨
          (loaded rest (p.1, p.2 + ds'.length + 2)).token = some 'E' then
          exponent fuel (loaded rest (p.1, p.2 + ds'.length + 2))
        else .ok (loaded rest (p.1, p.2 + ds'.length + 2))) = _
      cases rest with
      | nil =>
        rw [if_neg (by simp [loaded])]
        exact ok_loaded_congr _ _ _ _ (by simp; omega)
      | cons y ys =>
        have hy := hrest y rfl
        rw [if_neg (by simp [loaded_eq_mk, hy.2.2.1, hy.2.2.2])]
        exact ok_loaded_congr _ _ _ _ (by simp; omega)
    | mk e sg eds he hsg hne2 hdig2 =>
      show (if (loaded ((e :: (sg ++ eds)) ++ rest) (p.1, p.2 + ds'.length + 2)).token = some 'e' ∨
          (loaded ((e :: (sg ++ eds)) ++ rest) (p.1, p.2 + ds'.length + 2)).token = some 'E' then
          exponent fuel (loaded ((e :: (sg ++ eds)) ++ rest) (p.1, p.2 + ds'.length + 2))
        else .ok (loaded ((e :: (sg ++ eds)) ++ rest) (p.1, p.2 + ds'.length + 2))) = _
      rw [if_pos (by rcases he with rfl | rfl <;> simp [loaded_eq_mk])]
      rw [show (loaded ((e :: (sg ++ eds)) ++ rest) (p.1, p.2 + ds'.length + 2)) =
          ⟨(sg ++ eds) ++ rest, some e, p.1, p.2 + ds'.length + 2⟩ from rfl]
      rw [List.append_assoc]
      rw [exponent_sound sg eds rest (some e) p.1 (p.2 + ds'.length + 2) fuel hsg hne2 hdig2
        (fun y hy => (hrest y hy).1) (by simp at hfuel; omega)]
      exact ok_loaded_congr _ _ _ _ (by simp; omega)

theorem tokenIsDigit_head {r : List Char}
    (h : ∀ y, r.head? = some y → Char.isDigit y = false) : tokenIsDigit r.head? = false := by
  cases r with
  | nil => rfl
  | cons a t => simpa [tokenIsDigit] using h a rfl

/-- Once the `-` of a signed number is consumed, the remaining computation is
the number production on the unsigned remainder (whose first character is not
`-`). -/
theorem number_neg_reduce (d : Char) (tl : List Char) (p : Nat × Nat) (fuel : Nat)
    (hd : d ≠ '-') :
    number fuel (loaded ('-' :: (d :: tl)) p) = number fuel (loaded (d :: tl) (p.1, p.2 + 1)) := by
  simp [number, get_char_mk, Res.bind, loaded_eq_mk, hd]

/-- The number production on an unsigned valid number consumes exactly its
characters. -/
theorem number_sound_core (i fr ex rest : List Char) (p : Nat × Nat) (fuel : Nat)
    (hi : SIntPart i) (hf : SFracPart fr) (hx : SExpPart ex)
    (hrest : ∀ y, rest.head? = some y →
      Char.isDigit y = false ∧ y ≠ '.' ∧ y ≠ 'e' ∧ y ≠ 'E')
    (hfuel : i.length + fr.length + ex.length + 1 ≤ fuel) :
    number fuel (loaded (i ++ (fr ++ (ex ++ rest))) p) =
      .ok (loaded rest (p.1, p.2 + i.length + fr.length + ex.length)) := by
  have hmid : ∀ y, (fr ++ (ex ++ rest)).head? = some y → Char.isDigit y = false := by
    intro y hy
    cases hf with
    | mk fds hne hdig =>
      simp at hy
      cases hy
      decide
    | none =>
      cases hx with
      | none => exact (hrest y (by simpa using hy)).1
      | mk e sg eds he hsg hne hdig =>
        simp at hy
        rcases he with rfl | rfl <;> cases hy <;> decide
  cases hi with
  | zero =>
    show number fuel (loaded ('0' :: (fr ++ (ex ++ rest))) p) = _
    have key : ∀ m : List Char, (∀ y, m.head? = some y → Char.isDigit y = false) →
        number fuel (loaded ('0' :: m) p) = number_fracexp fuel (loaded m (p.1, p.2 + 1)) := by
      intro m hm
      cases m with
      | nil => simp [number, get_char_none_mk, Res.bind, loaded, tokenIsDigit]
      | cons a t =>
        have ha := hm a rfl
        simp [number, get_char_none_mk, Res.bind, loaded_eq_mk, tokenIsDigit, ha]
    rw [key _ hmid]
    rw [number_fracexp_sound fr ex rest (p.1, p.2 + 1) fuel hf hx hrest
      (by simp at hfuel; omega)]
    exact ok_loaded_congr _ _ _ _
      (by simp only [List.length_cons, List.length_nil])
  | nz d ds hd hdnz hdig =>
    show number fuel (loaded (d :: (ds ++ (fr ++ (ex ++ rest)))) p) = _
    rw [show number fuel (loaded (d :: (ds ++ (fr ++ (ex ++ rest)))) p) =
        Res.bind (digit fuel ⟨ds ++ (fr ++ (ex ++ rest)), some d, p.1, p.2⟩)
          (fun st2 => number_fracexp fuel st2) from by
      simp [number, Res.bind, loaded_eq_mk, (isDigit_facts hd).1, hdnz, tokenIsDigit, hd]]
    rw [digit_sound ds (some d) (fr ++ (ex ++ rest)) p.1 p.2 fuel hdig hmid
      (by simp at hfuel; omega)]
    simp only [Res.bind_ok]
    rw [number_fracexp_sound fr ex rest (p.1, p.2 + ds.length + 1) fuel hf hx hrest
      (by simp at hfuel; omega)]
    exact ok_loaded_congr _ _ _ _ (by simp; omega)

/-- The number production consumes exactly a valid number and stops with the
following character as the token, provided that character cannot extend the
number. -/
theorem number_sound_len (n rest : List Char) (p : Nat × Nat) (fuel : Nat) (hn : SNum n)
    (hrest : ∀ y, rest.head? = some y →
      Char.isDigit y = false ∧ y ≠ '.' ∧ y ≠ 'e' ∧ y ≠ 'E')
    (hfuel : n.length + 1 ≤ fuel) :
    number fuel (loaded (n ++ rest) p) = .ok (loaded rest (p.1, p.2 + n.length)) := by
  cases hn with
  | mk sg i fr ex hsg hi hf hx =>
    obtain ⟨d, i', rfl, hdm⟩ : ∃ d i', i = d :: i' ∧ d ≠ '-' := by
      cases hi with
      | zero => exact ⟨'0', [], rfl, by decide⟩
      | nz d ds hd _ _ => exact ⟨d, ds, rfl, (isDigit_facts hd).1⟩
    rcases hsg with rfl | rfl
    · simp only [List.nil_append, List.append_assoc]
      rw [number_sound_core (d :: i') fr ex rest p fuel hi hf hx hrest
        (by simp only [List.length_append, List.length_cons, List.length_nil] at hfuel ⊢; omega)]
      exact ok_loaded_congr _ _ _ _
        (by simp only [List.length_append, List.length_cons, List.length_nil]; omega)
    · simp only [List.singleton_append, List.cons_append, List.nil_append,
        List.append_assoc]
      rw [number_neg_reduce d (i' ++ (fr ++ (ex ++ rest))) p fuel hdm]
      rw [show (d :: (i' ++ (fr ++ (ex ++ rest))) : List Char) =
        (d :: i') ++ (fr ++ (ex ++ rest)) from rfl]
      rw [number_sound_core (d :: i') fr ex rest (p.1, p.2 + 1) fuel hi hf hx hrest
        (by simp only [List.length_append, List.length_cons, List.length_nil] at hfuel ⊢; omega)]
      exact ok_loaded_congr _ _ _ _
        (by simp only [List.length_append, List.length_cons, List.length_nil]; omega)

theorem ok_loaded_congr_pos (r : List Char) (q q' : Nat × Nat) (h : q = q') :
    Res.ok (loaded r q) = .ok (loaded r q') := by rw [h]

/-- Fetching with an eof policy from a nonempty unread input succeeds. -/
theorem get_char_some_of_ne (m : String) (code : ErrorCode) (r : List Char)
    (tok : Option Char) (l c : Nat) (h : r ≠ []) :
    get_char (some (m, code)) ⟨r, tok, l, c⟩ = .ok (loaded r (l, c + 1)) := by
  obtain ⟨a, t, rfl⟩ := List.exists_cons_of_ne_nil h
  rfl

theorem isDigit_plain {c : Char} (h : c.isDigit = true) :
    c ≠ '\t' ∧ c ≠ '\r' ∧ c ≠ '\n' := by
  refine ⟨?_, ?_, ?_⟩ <;> rintro rfl <;> exact absurd h (by decide)

theorem isDigit_delims {c : Char} (h : c.isDigit = true) :
    c ≠ ']' ∧ c ≠ '}' ∧ c ≠ ',' ∧ c ≠ ':' ∧ c ≠ '{' ∧ c ≠ '[' ∧
      c ≠ 't' ∧ c ≠ 'f' ∧ c ≠ 'n' := by
  refine ⟨?_, ?_, ?_, ?_, ?_, ?_, ?_, ?_, ?_⟩ <;> rintro rfl <;> exact absurd h (by decide)

theorem ge32_plain {c : Char} (h : 0x20 ≤ c.toNat) :
    c ≠ '\t' ∧ c ≠ '\r' ∧ c ≠ '\n' := by
  refine ⟨?_, ?_, ?_⟩ <;> rintro rfl <;> exact absurd h (by decide)

theorem specHex_plain {c : Char} (h : c ∈ specHexChars) :
    c ≠ '\t' ∧ c ≠ '\r' ∧ c ≠ '\n' := by
  fin_cases h <;> exact ⟨by decide, by decide, by decide⟩

theorem escChars_plain {c : Char} (h : c ∈ escChars) :
    c ≠ '\t' ∧ c ≠ '\r' ∧ c ≠ '\n' := by
  fin_cases h <;> exact ⟨by decide, by decide, by decide⟩

/-- A valid string body contains no raw tab, carriage return or line feed. -/
theorem strbody_plain {b : List Char} (hb : SStrBody b) :
    ∀ c ∈ b, c ≠ '\t' ∧ c ≠ '\r' ∧ c ≠ '\n' := by
  induction hb with
  | nil => intro c hc; simp at hc
  | cons i s hi _hs ih =>
    intro c hc
    rw [List.mem_append] at hc
    rcases hc with hc | hc
    · cases hi with
      | unesc a ha1 ha2 ha3 =>
        simp at hc
        subst hc
        exact ge32_plain ha3
      | esc a ha =>
        simp at hc
        rcases hc with rfl | rfl
        · exact ⟨by decide, by decide, by decide⟩
        · exact escChars_plain ha
      | hex h1 h2 h3 h4 hh1 hh2 hh3 hh4 =>
        simp at hc
        rcases hc with rfl | rfl | rfl | rfl | rfl | rfl
        · exact ⟨by decide, by decide, by decide⟩
        · exact ⟨by decide, by decide, by decide⟩
        · exact specHex_plain hh1
        · exact specHex_plain hh2
        · exact specHex_plain hh3
        · exact specHex_plain hh4
    · exact ih c hc

/-- The position after a valid string is its start column plus its length, on
the same line. -/
theorem str_posAfter {b : List Char} (hb : SStrBody b) (p : Nat × Nat) :
    posAfter p ('"' :: (b ++ ['"'])) = (p.1, p.2 + (b.length + 2)) := by
  rw [posAfter_plain ('"' :: (b ++ ['"']))]
  · simp
  · intro c hc
    simp at hc
    rcases hc with rfl | hc | rfl
    · exact ⟨by decide, by decide, by decide⟩
    · exact strbody_plain hb c hc
    · exact ⟨by decide, by decide, by decide⟩

/-- A valid number contains no tab, carriage return or line feed. -/
theorem num_plain {n : List Char} (hn : SNum n) :
    ∀ c ∈ n, c ≠ '\t' ∧ c ≠ '\r' ∧ c ≠ '\n' := by
  cases hn with
  | mk sg i fr ex hsg hi hf hx =>
    intro c hc
    simp at hc
    rcases hc with hc | hc | hc | hc
    · rcases hsg with rfl | rfl
      · simp at hc
      · simp at hc
        subst hc
        exact ⟨by decide, by decide, by decide⟩
    · cases hi with
      | zero =>
        simp at hc
        subst hc
        exact ⟨by decide, by decide, by decide⟩
      | nz d ds hd _ hds =>
        simp at hc
        rcases hc with rfl | hc
        · exact isDigit_plain hd
        · exact isDigit_plain (hds c hc)
    · cases hf with
      | none => simp at hc
      | mk ds _ hds =>
        simp at hc
        rcases hc with rfl | hc
        · exact ⟨by decide, by decide, by decide⟩
        · exact isDigit_plain (hds c hc)
    · cases hx with
      | none => simp at hc
      | mk e sgn ds he hsgn _ hds =>
        simp at hc
        rcases hc with rfl | hc | hc
        · rcases he with rfl | rfl <;> exact ⟨by decide, by decide, by decide⟩
        · rcases hsgn with rfl | rfl | rfl <;> simp at hc <;> subst hc <;>
            exact ⟨by decide, by decide, by decide⟩
        · exact isDigit_plain (hds c hc)

/-- The position after a valid number is its start column plus its length. -/
theorem num_posAfter {n : List Char} (hn : SNum n) (p : Nat × Nat) :
    posAfter p n = (p.1, p.2 + n.length) := posAfter_plain n (num_plain hn) p

/-- A context in which a value may legally stop: the next character is a
comma, a closing bracket or a closing brace. -/
def goodFollow (rest : List Char) : Prop :=
  ∃ y ys, rest = y :: ys ∧ (y = ',' ∨ y = ']' ∨ y = '}')

theorem follow_facts {rest : List Char} (h : goodFollow rest) :
    ∀ y, rest.head? = some y →
      isWsB y = false ∧ Char.isDigit y = false ∧ y ≠ '.' ∧ y ≠ 'e' ∧ y ≠ 'E' := by
  obtain ⟨y0, ys, rfl, hy0⟩ := h
  intro y hy
  simp at hy
  subst hy
  rcases hy0 with rfl | rfl | rfl <;>
    exact ⟨by decide, by decide, by decide, by decide, by decide⟩

theorem follow_ne_nil {rest : List Char} (h : goodFollow rest) : rest ≠ [] := by
  obtain ⟨y0, ys, rfl, _⟩ := h
  simp

/-- After a value, the stream starts with trailing whitespace and then a
follow character; nothing there can extend a number. -/
theorem mid_follow {w rest : List Char} (hw : SWs w) (h : goodFollow rest) :
    ∀ y, (w ++ rest).head? = some y →
      Char.isDigit y = false ∧ y ≠ '.' ∧ y ≠ 'e' ∧ y ≠ 'E' := by
  intro y hy
  cases hw with
  | nil =>
    have := follow_facts h y (by simpa using hy)
    exact ⟨this.2.1, this.2.2.1, this.2.2.2.1, this.2.2.2.2⟩
  | cons c s hc _hs =>
    simp at hy
    rcases isWsB_elim hc with rfl | rfl | rfl | rfl <;> cases hy <;>
      exact ⟨by decide, by decide, by decide, by decide⟩

/-- The head of a valid number is `-` or a digit, and in particular none of
the characters the value dispatcher checks first. -/
theorem snum_head {n : List Char} (hn : SNum n) :
    ∃ c0 n', n = c0 :: n' ∧ (c0 = '-' ∨ c0.isDigit = true) := by
  cases hn with
  | mk sg i fr ex hsg hi hf hx =>
    rcases hsg with rfl | rfl
    · cases hi with
      | zero => exact ⟨'0', _, rfl, Or.inr (by decide)⟩
      | nz d ds hd _ _ => exact ⟨d, _, rfl, Or.inr hd⟩
    · exact ⟨'-', _, rfl, Or.inl rfl⟩

/-- A valid value is nonempty, starts with a character that is not
whitespace, and cannot be confused with a closing delimiter, comma or
colon. -/
theorem sval_head {v : List Char} (hv : SVal v) :
    ∃ c0 v', v = c0 :: v' ∧ isWsB c0 = false ∧ c0 ≠ ']' ∧ c0 ≠ '}' ∧ c0 ≠ ',' ∧ c0 ≠ ':' := by
  cases hv with
  | str s hs =>
    obtain ⟨b, _, rfl⟩ := hs
    exact ⟨'"', _, rfl, by decide, by decide, by decide, by decide, by decide⟩
  | num s hs =>
    obtain ⟨c0, n', rfl, hc0⟩ := snum_head hs
    rcases hc0 with rfl | hdig
    · exact ⟨'-', _, rfl, by decide, by decide, by decide, by decide, by decide⟩
    · have h1 := isDigit_not_ws hdig
      have h2 := isDigit_delims hdig
      exact ⟨c0, _, rfl, h1, h2.1, h2.2.1, h2.2.2.1, h2.2.2.2.1⟩
  | tru => exact ⟨'t', _, rfl, by decide, by decide, by decide, by decide, by decide⟩
  | fls => exact ⟨'f', _, rfl, by decide, by decide, by decide, by decide, by decide⟩
  | nul => exact ⟨'n', _, rfl, by decide, by decide, by decide, by decide, by decide⟩
  | obj s hs => cases hs with
    | empty w hw => exact ⟨'{', _, rfl, by decide, by decide, by decide, by decide, by decide⟩
    | nonempty w1 ms hw1 hms =>
      exact ⟨'{', _, rfl, by decide, by decide, by decide, by decide, by decide⟩
  | arr s hs => cases hs with
    | empty w hw => exact ⟨'[', _, rfl, by decide, by decide, by decide, by decide, by decide⟩
    | nonempty es hes => exact ⟨'[', _, rfl, by decide, by decide, by decide, by decide, by decide⟩

theorem sval_ne_nil {v : List Char} (hv : SVal v) : v ≠ [] := by
  obtain ⟨c0, v', rfl, _⟩ := sval_head hv
  simp

theorem selem_ne_nil {e : List Char} (he : SElem e) : e ≠ [] := by
  cases he with
  | mk w1 v w2 hw1 hv hw2 =>
    obtain ⟨c0, v', rfl, _⟩ := sval_head hv
    simp

theorem selems_ne_nil {es : List Char} (hes : SElems es) : es ≠ [] := by
  cases hes with
  | one e he => exact selem_ne_nil he
  | more e es2 he _ => simp

/-- A member list starts with the opening quote of its first key. -/
theorem smembers_head {ms : List Char} (hms : SMembers ms) :
    ∃ tl, ms = '"' :: tl := by
  cases hms with
  | one k w2 e hk _ _ =>
    obtain ⟨b, _, rfl⟩ := hk
    exact ⟨_, rfl⟩
  | more k w2 e w3 ms2 hk _ _ _ _ =>
    obtain ⟨b, _, rfl⟩ := hk
    exact ⟨_, rfl⟩

theorem smembers_ne_nil {ms : List Char} (hms : SMembers ms) : ms ≠ [] := by
  obtain ⟨tl, rfl⟩ := smembers_head hms
  simp

/-- The `true` literal consumes its four characters and fetches the next one
(which must exist, or the value-EOF error is raised). -/
theorem true_value_sound (tl : List Char) (p : Nat × Nat) (h : tl ≠ []) :
    true_value (loaded ('t' :: ('r' :: ('u' :: ('e' :: tl)))) p) =
      .ok (loaded tl (p.1, p.2 + 4)) := by
  obtain ⟨y, ys, rfl⟩ := List.exists_cons_of_ne_nil h
  simp [true_value, literal_loop, get_char_mk, Res.bind, loaded_eq_mk, St.mk.injEq]

/-- The `false` literal consumes its five characters and fetches the next
one. -/
theorem false_value_sound (tl : List Char) (p : Nat × Nat) (h : tl ≠ []) :
    false_value (loaded ('f' :: ('a' :: ('l' :: ('s' :: ('e' :: tl))))) p) =
      .ok (loaded tl (p.1, p.2 + 5)) := by
  obtain ⟨y, ys, rfl⟩ := List.exists_cons_of_ne_nil h
  simp [false_value, literal_loop, get_char_mk, Res.bind, loaded_eq_mk, St.mk.injEq]

/-- The `null` literal consumes its four characters and fetches the next
one. -/
theorem null_value_sound (tl : List Char) (p : Nat × Nat) (h : tl ≠ []) :
    null_value (loaded ('n' :: ('u' :: ('l' :: ('l' :: tl)))) p) =
      .ok (loaded tl (p.1, p.2 + 4)) := by
  obtain ⟨y, ys, rfl⟩ := List.exists_cons_of_ne_nil h
  simp [null_value, literal_loop, get_char_mk, Res.bind, loaded_eq_mk, St.mk.injEq]

theorem loaded_token (r : List Char) (p : Nat × Nat) : (loaded r p).token = r.head? := rfl

/-- Fetching from a loaded stream whose tail is nonempty succeeds under any
eof policy. -/
theorem get_char_cons_ne (e : Option (String × ErrorCode)) (x : Char) (r' : List Char)
    (p : Nat × Nat) (h : r' ≠ []) :
    get_char e (loaded (x :: r') p) = .ok (loaded r' (p.1, p.2 + 1)) := by
  obtain ⟨a, t, rfl⟩ := List.exists_cons_of_ne_nil h
  cases e with
  | none => rfl
  | some mc =>
    obtain ⟨m, code⟩ := mc
    rfl

/-- An element list splits into the leading whitespace of its first element
and a remaining element list that starts with a non-whitespace character. -/
theorem selems_strip {es : List Char} (hes : SElems es) :
    ∃ w1 es', es = w1 ++ es' ∧ SWs w1 ∧ SElems es' ∧
      (∀ y, es'.head? = some y → isWsB y = false ∧ y ≠ ']') := by
  cases hes with
  | one e he =>
    cases he with
    | mk w1 v w2 hw1 hv hw2 =>
      obtain ⟨c0, v', hveq, hws, hrb, _, _, _⟩ := sval_head hv
      refine ⟨w1, v ++ w2, by simp [List.append_assoc], hw1,
        SElems.one _ (SElem.mk [] v w2 SWs.nil hv hw2), ?_⟩
      intro y hy
      rw [hveq] at hy
      simp at hy
      exact hy ▸ ⟨hws, hrb⟩
  | more e es2 he hes2 =>
    cases he with
    | mk w1 v w2 hw1 hv hw2 =>
      obtain ⟨c0, v', hveq, hws, hrb, _, _, _⟩ := sval_head hv
      refine ⟨w1, (v ++ w2) ++ (',' :: es2), by simp [List.append_assoc], hw1,
        SElems.more _ _ (SElem.mk [] v w2 SWs.nil hv hw2) hes2, ?_⟩
      intro y hy
      rw [hveq] at hy
      simp at hy
      exact hy ▸ ⟨hws, hrb⟩

theorem stepPos_comma (q : Nat × Nat) : stepPos q ',' = (q.1, q.2 + 1) :=
  stepPos_plain q ',' (by decide) (by decide) (by decide)

theorem stepPos_colon (q : Nat × Nat) : stepPos q ':' = (q.1, q.2 + 1) :=
  stepPos_plain q ':' (by decide) (by decide) (by decide)

theorem stepPos_lbracket (q : Nat × Nat) : stepPos q '[' = (q.1, q.2 + 1) :=
  stepPos_plain q '[' (by decide) (by decide) (by decide)

theorem stepPos_rbracket (q : Nat × Nat) : stepPos q ']' = (q.1, q.2 + 1) :=
  stepPos_plain q ']' (by decide) (by decide) (by decide)

theorem stepPos_lbrace (q : Nat × Nat) : stepPos q '{' = (q.1, q.2 + 1) :=
  stepPos_plain q '{' (by decide) (by decide) (by decide)

theorem stepPos_rbrace (q : Nat × Nat) : stepPos q '}' = (q.1, q.2 + 1) :=
  stepPos_plain q '}' (by decide) (by decide) (by decide)

/-- `string_sound_len`, with the resulting position expressed as the position
after the consumed string. -/
theorem string_sound (b : List Char) (hb : SStrBody b) (rest : List Char) (p : Nat × Nat)
    (fuel : Nat) (hfuel : b.length + 1 ≤ fuel) :
    string fuel (loaded ('"' :: (b ++ ('"' :: rest))) p) =
      .ok (loaded rest (posAfter p ('"' :: (b ++ ['"'])))) := by
  rw [string_sound_len b hb rest p fuel hfuel, str_posAfter hb]
  exact ok_loaded_congr _ _ _ _ (by omega)

/-- `number_sound_len`, with the resulting position expressed as the position
after the consumed number. -/
theorem number_sound (n rest : List Char) (p : Nat × Nat) (fuel : Nat) (hn : SNum n)
    (hrest : ∀ y, rest.head? = some y →
      Char.isDigit y = false ∧ y ≠ '.' ∧ y ≠ 'e' ∧ y ≠ 'E')
    (hfuel : n.length + 1 ≤ fuel) :
    number fuel (loaded (n ++ rest) p) = .ok (loaded rest (posAfter p n)) := by
  rw [number_sound_len n rest p fuel hn hrest hfuel, num_posAfter hn]

theorem posAfter_true (p : Nat × Nat) :
    posAfter p ['t', 'r', 'u', 'e'] = (p.1, p.2 + 4) := by
  simp [posAfter, stepPos]

theorem posAfter_false (p : Nat × Nat) :
    posAfter p ['f', 'a', 'l', 's', 'e'] = (p.1, p.2 + 5) := by
  simp [posAfter, stepPos]

theorem posAfter_null (p : Nat × Nat) :
    posAfter p ['n', 'u', 'l', 'l'] = (p.1, p.2 + 4) := by
  simp [posAfter, stepPos]

/-- `true_value_sound`, with the position as the position after `true`. -/
theorem true_value_pos (tl : List Char) (p : Nat × Nat) (h : tl ≠ []) :
    true_value (loaded ('t' :: ('r' :: ('u' :: ('e' :: tl)))) p) =
      .ok (loaded tl (posAfter p ['t', 'r', 'u', 'e'])) := by
  rw [true_value_sound tl p h, posAfter_true]

/-- `false_value_sound`, with the position as the position after `false`. -/
theorem false_value_pos (tl : List Char) (p : Nat × Nat) (h : tl ≠ []) :
    false_value (loaded ('f' :: ('a' :: ('l' :: ('s' :: ('e' :: tl))))) p) =
      .ok (loaded tl (posAfter p ['f', 'a', 'l', 's', 'e'])) := by
  rw [false_value_sound tl p h, posAfter_false]

/-- `null_value_sound`, with the position as the position after `null`. -/
theorem null_value_pos (tl : List Char) (p : Nat × Nat) (h : tl ≠ []) :
    null_value (loaded ('n' :: ('u' :: ('l' :: ('l' :: tl)))) p) =
      .ok (loaded tl (posAfter p ['n', 'u', 'l', 'l'])) := by
  rw [null_value_sound tl p h, posAfter_null]

theorem productions_sound (fuel : Nat) :
    (∀ w1 v w2 rest r p, SWs w1 → SVal v → SWs w2 → goodFollow rest →
      r = w1 ++ (v ++ (w2 ++ rest)) →
      3 * (w1.length + v.length + w2.length) + 4 ≤ fuel →
      value fuel (loaded r p) =
        .ok (loaded rest (posAfter p (w1 ++ (v ++ w2))))) ∧
    (∀ es rest r p, SElems es → (∃ ys, rest = ']' :: ys) → r = es ++ rest →
      3 * es.length + 8 ≤ fuel →
      value_list fuel (loaded r p) = .ok (loaded rest (posAfter p es))) ∧
    (∀ ms rest r p, SMembers ms → (∃ ys, rest = '}' :: ys) → r = ms ++ rest →
      3 * ms.length + 8 ≤ fuel →
      key_value_list fuel (loaded r p) = .ok (loaded rest (posAfter p ms))) ∧
    (∀ v rest r p, SArr v → r = v ++ rest → 3 * v.length + 3 ≤ fuel →
      array fuel (loaded r p) = .ok (loaded rest (posAfter p v))) ∧
    (∀ v rest r p, SObj v → r = v ++ rest → 3 * v.length + 3 ≤ fuel →
      json_object fuel (loaded r p) = .ok (loaded rest (posAfter p v))) := by
  induction fuel with
  | zero =>
    refine ⟨?_, ?_, ?_, ?_, ?_⟩
    · intro w1 v w2 rest r p _ _ _ _ _ h
      omega
    · intro es rest r p _ _ _ h
      omega
    · intro ms rest r p _ _ _ h
      omega
    · intro v rest r p _ _ h
      omega
    · intro v rest r p _ _ h
      omega
  | succ f ih =>
    obtain ⟨ihv, ihvl, ihkv, iharr, ihobj⟩ := ih
    refine ⟨?_, ?_, ?_, ?_, ?_⟩
    -- value
    · intro w1 v w2 rest r p hw1 hv hw2 hgf hr hfuel
      subst hr
      have hwfol : ∀ y, rest.head? = some y → isWsB y = false :=
        fun y hy => (follow_facts hgf y hy).1
      have hrne : rest ≠ [] := follow_ne_nil hgf
      have hvhead : ∀ y, (v ++ (w2 ++ rest)).head? = some y → isWsB y = false := by
        obtain ⟨c0, v', hveq, hws, _, _, _, _⟩ := sval_head hv
        intro y hy
        rw [hveq] at hy
        simp at hy
        exact hy ▸ hws
      have hfw1 : w1.length + 1 ≤ f := by omega
      have hfw2 : w2.length + 1 ≤ f := by omega
      simp only [value]
      rw [whitespace_sound w1 hw1 (v ++ (w2 ++ rest)) p f hvhead hfw1]
      simp only [Res.bind_ok]
      simp only [posAfter_append]
      cases hv with
      | str s hs =>
        obtain ⟨b, hb, rfl⟩ := hs
        simp only [List.length_cons, List.length_append, List.length_nil] at hfuel
        simp only [List.cons_append, List.append_assoc, List.singleton_append,
          List.nil_append, loaded_token, List.head?_cons]
        simp only [if_true]
        rw [string_sound b hb (w2 ++ rest) (posAfter p w1) f (by omega)]
        simp only [Res.bind_ok]
        rw [whitespace_sound w2 hw2 rest _ f hwfol hfw2]
      | num s hs =>
        obtain ⟨c0, n', hneq, hc0⟩ := snum_head hs
        have hc0q : c0 ≠ '"' := by
          rcases hc0 with rfl | hd
          · decide
          · exact (isDigit_facts hd).2.2.2.2.2
        have hmf : ∀ y, (w2 ++ rest).head? = some y →
            Char.isDigit y = false ∧ y ≠ '.' ∧ y ≠ 'e' ∧ y ≠ 'E' := mid_follow hw2 hgf
        have hnum := number_sound v (w2 ++ rest) (posAfter p w1) f hs hmf (by omega)
        rw [hneq] at hnum ⊢
        rw [hneq] at hfuel
        simp only [List.length_cons] at hfuel
        simp only [List.cons_append] at hnum ⊢
        simp only [loaded_token, List.head?_cons]
        rw [if_neg (by simp [hc0q])]
        rw [if_pos (by
          rcases hc0 with rfl | hd
          · exact Or.inl rfl
          · exact Or.inr (by simp [tokenIsDigit, hd]))]
        rw [hnum]
        simp only [Res.bind_ok]
        rw [whitespace_sound w2 hw2 rest _ f hwfol hfw2]
      | tru =>
        simp only [List.cons_append, List.nil_append, loaded_token, List.head?_cons]
        rw [if_neg (by decide), if_neg (by decide), if_neg (by decide), if_neg (by decide)]
        simp only [if_true]
        rw [true_value_pos (w2 ++ rest) (posAfter p w1) (by simp [hrne])]
        simp only [Res.bind_ok]
        rw [whitespace_sound w2 hw2 rest _ f hwfol hfw2]
      | fls =>
        simp only [List.cons_append, List.nil_append, loaded_token, List.head?_cons]
        rw [if_neg (by decide), if_neg (by decide), if_neg (by decide), if_neg (by decide),
          if_neg (by decide)]
        simp only [if_true]
        rw [false_value_pos (w2 ++ rest) (posAfter p w1) (by simp [hrne])]
        simp only [Res.bind_ok]
        rw [whitespace_sound w2 hw2 rest _ f hwfol hfw2]
      | nul =>
        simp only [List.cons_append, List.nil_append, loaded_token, List.head?_cons]
        rw [if_neg (by decide), if_neg (by decide), if_neg (by decide), if_neg (by decide),
          if_neg (by decide), if_neg (by decide)]
        simp only [if_true]
        rw [null_value_pos (w2 ++ rest) (posAfter p w1) (by simp [hrne])]
        simp only [Res.bind_ok]
        rw [whitespace_sound w2 hw2 rest _ f hwfol hfw2]
      | obj s hs =>
        obtain ⟨tl, hseq⟩ : ∃ tl, v = '{' :: tl := by
          cases hs with
          | empty w hw => exact ⟨_, rfl⟩
          | nonempty w1x ms hw1x hms => exact ⟨_, rfl⟩
        have hobj := ihobj v (w2 ++ rest) (v ++ (w2 ++ rest)) (posAfter p w1) hs rfl
          (by omega)
        rw [hseq] at hobj ⊢
        simp only [List.cons_append] at hobj ⊢
        simp only [loaded_token, List.head?_cons]
        rw [if_neg (by decide), if_neg (by decide)]
        simp only [if_true]
        rw [hobj]
        simp only [Res.bind_ok]
        rw [whitespace_sound w2 hw2 rest _ f hwfol hfw2]
      | arr s hs =>
        obtain ⟨tl, hseq⟩ : ∃ tl, v = '[' :: tl := by
          cases hs with
          | empty w hw => exact ⟨_, rfl⟩
          | nonempty es hes => exact ⟨_, rfl⟩
        have harr := iharr v (w2 ++ rest) (v ++ (w2 ++ rest)) (posAfter p w1) hs rfl
          (by omega)
        rw [hseq] at harr ⊢
        simp only [List.cons_append] at harr ⊢
        simp only [loaded_token, List.head?_cons]
        rw [if_neg (by decide), if_neg (by decide), if_neg (by decide)]
        simp only [if_true]
        rw [harr]
        simp only [Res.bind_ok]
        rw [whitespace_sound w2 hw2 rest _ f hwfol hfw2]
    -- value_list
    · intro es rest r p hes hbr hr hfuel
      subst hr
      obtain ⟨ys, rfl⟩ := hbr
      cases hes with
      | one e he =>
        cases he with
        | mk w1 v w2 hw1 hv hw2 =>
          simp only [List.length_append] at hfuel
          simp only [value_list]
          rw [ihv w1 v w2 (']' :: ys) ((w1 ++ (v ++ w2)) ++ (']' :: ys)) p hw1 hv hw2
            ⟨']', ys, rfl, Or.inr (Or.inl rfl)⟩ (by simp [List.append_assoc]) (by omega)]
          simp only [Res.bind_ok, loaded_token, List.head?_cons]
          rw [if_neg (by decide)]
      | more e es2 he hes2 =>
        cases he with
        | mk w1 v w2 hw1 hv hw2 =>
          simp only [List.length_append, List.length_cons] at hfuel
          simp only [value_list]
          rw [show ((w1 ++ (v ++ w2)) ++ (',' :: es2)) ++ (']' :: ys) =
            (w1 ++ (v ++ w2)) ++ (',' :: (es2 ++ (']' :: ys))) from by
              simp [List.append_assoc]]
          rw [ihv w1 v w2 (',' :: (es2 ++ (']' :: ys)))
            ((w1 ++ (v ++ w2)) ++ (',' :: (es2 ++ (']' :: ys)))) p hw1 hv hw2
            ⟨',', es2 ++ (']' :: ys), rfl, Or.inl rfl⟩ (by simp [List.append_assoc])
            (by omega)]
          simp only [Res.bind_ok, loaded_token, List.head?_cons, if_true]
          rw [get_char_cons_ne _ ',' (es2 ++ (']' :: ys)) _ (by simp)]
          simp only [Res.bind_ok]
          rw [ihvl es2 (']' :: ys) (es2 ++ (']' :: ys))
            ((posAfter p (w1 ++ (v ++ w2))).1, (posAfter p (w1 ++ (v ++ w2))).2 + 1)
            hes2 ⟨ys, rfl⟩ rfl (by omega)]
          refine ok_loaded_congr_pos _ _ _ ?_
          simp only [posAfter_append, posAfter_cons, posAfter_nil, stepPos_comma,
            stepPos_colon, stepPos_lbracket, stepPos_rbracket, stepPos_lbrace,
            stepPos_rbrace, List.nil_append]
    -- key_value_list
    · intro ms rest r p hms hbr hr hfuel
      subst hr
      obtain ⟨ys, rfl⟩ := hbr
      cases hms with
      | one k w2 e hk hw2 he =>
        obtain ⟨bk, hbk, rfl⟩ := hk
        cases he with
        | mk w1e ve w2e hw1e hve hw2e =>
          have hvehead : ∀ y, (ve ++ (w2e ++ ('}' :: ys))).head? = some y →
              isWsB y = false := by
            obtain ⟨c0, v', hveq, hws, _, _, _, _⟩ := sval_head hve
            intro y hy
            rw [hveq] at hy
            simp at hy
            exact hy ▸ hws
          simp only [List.length_append, List.length_cons, List.length_nil] at hfuel
          simp only [key_value_list]
          simp only [List.cons_append, List.append_assoc, List.singleton_append,
            List.nil_append, loaded_token, List.head?_cons]
          rw [if_neg (by decide)]
          rw [string_sound bk hbk
            (w2 ++ (':' :: (w1e ++ (ve ++ (w2e ++ ('}' :: ys)))))) p f (by omega)]
          simp only [Res.bind_ok]
          rw [whitespace_sound w2 hw2 (':' :: (w1e ++ (ve ++ (w2e ++ ('}' :: ys))))) _ f
            (by intro y hy; simp at hy; exact hy ▸ (by decide)) (by omega)]
          simp only [Res.bind_ok, loaded_token, List.head?_cons]
          rw [if_neg (by decide)]
          rw [get_char_cons_ne _ ':' (w1e ++ (ve ++ (w2e ++ ('}' :: ys)))) _ (by
            obtain ⟨c0, v', hveq, _⟩ := sval_head hve
            rw [hveq]
            simp)]
          simp only [Res.bind_ok]
          rw [whitespace_sound w1e hw1e (ve ++ (w2e ++ ('}' :: ys))) _ f hvehead (by omega)]
          simp only [Res.bind_ok]
          rw [ihv [] ve w2e ('}' :: ys) (ve ++ (w2e ++ ('}' :: ys))) _ SWs.nil hve hw2e
            ⟨'}', ys, rfl, Or.inr (Or.inr rfl)⟩ rfl
            (by simp only [List.length_nil]; omega)]
          simp only [Res.bind_ok, loaded_token, List.head?_cons]
          rw [if_neg (by decide)]
          refine ok_loaded_congr_pos _ _ _ ?_
          simp only [posAfter_append, posAfter_cons, posAfter_nil, stepPos_comma,
            stepPos_colon, stepPos_lbracket, stepPos_rbracket, stepPos_lbrace,
            stepPos_rbrace, List.nil_append]
      | more k w2 e w3 ms2 hk hw2 he hw3 hms2 =>
        obtain ⟨bk, hbk, rfl⟩ := hk
        cases he with
        | mk w1e ve w2e hw1e hve hw2e =>
          have hvehead : ∀ y,
              (ve ++ (w2e ++ (',' :: (w3 ++ (ms2 ++ ('}' :: ys)))))).head? = some y →
              isWsB y = false := by
            obtain ⟨c0, v', hveq, hws, _, _, _, _⟩ := sval_head hve
            intro y hy
            rw [hveq] at hy
            simp at hy
            exact hy ▸ hws
          have hms2head : ∀ y, (ms2 ++ ('}' :: ys)).head? = some y → isWsB y = false := by
            obtain ⟨tl2, hms2eq⟩ := smembers_head hms2
            intro y hy
            rw [hms2eq] at hy
            simp at hy
            exact hy ▸ (by decide)
          simp only [List.length_append, List.length_cons, List.length_nil] at hfuel
          simp only [key_value_list]
          simp only [List.cons_append, List.append_assoc, List.singleton_append,
            List.nil_append, loaded_token, List.head?_cons]
          rw [if_neg (by decide)]
          rw [string_sound bk hbk
            (w2 ++ (':' :: (w1e ++ (ve ++ (w2e ++ (',' :: (w3 ++ (ms2 ++ ('}' :: ys))))))))) p f
            (by omega)]
          simp only [Res.bind_ok]
          rw [whitespace_sound w2 hw2
            (':' :: (w1e ++ (ve ++ (w2e ++ (',' :: (w3 ++ (ms2 ++ ('}' :: ys)))))))) _ f
            (by intro y hy; simp at hy; exact hy ▸ (by decide)) (by omega)]
          simp only [Res.bind_ok, loaded_token, List.head?_cons]
          rw [if_neg (by decide)]
          rw [get_char_cons_ne _ ':'
            (w1e ++ (ve ++ (w2e ++ (',' :: (w3 ++ (ms2 ++ ('}' :: ys))))))) _ (by
            obtain ⟨c0, v', hveq, _⟩ := sval_head hve
            rw [hveq]
            simp)]
          simp only [Res.bind_ok]
          rw [whitespace_sound w1e hw1e
            (ve ++ (w2e ++ (',' :: (w3 ++ (ms2 ++ ('}' :: ys)))))) _ f hvehead (by omega)]
          simp only [Res.bind_ok]
          rw [ihv [] ve w2e (',' :: (w3 ++ (ms2 ++ ('}' :: ys))))
            (ve ++ (w2e ++ (',' :: (w3 ++ (ms2 ++ ('}' :: ys)))))) _ SWs.nil hve hw2e
            ⟨',', w3 ++ (ms2 ++ ('}' :: ys)), rfl, Or.inl rfl⟩ rfl
            (by simp only [List.length_nil]; omega)]
          simp only [Res.bind_ok, loaded_token, List.head?_cons, if_true]
          rw [get_char_cons_ne _ ',' (w3 ++ (ms2 ++ ('}' :: ys))) _ (by
            obtain ⟨tl2, hms2eq⟩ := smembers_head hms2
            rw [hms2eq]
            simp)]
          simp only [Res.bind_ok]
          rw [whitespace_sound w3 hw3 (ms2 ++ ('}' :: ys)) _ f hms2head (by omega)]
          simp only [Res.bind_ok]
          rw [ihkv ms2 ('}' :: ys) (ms2 ++ ('}' :: ys)) _ hms2 ⟨ys, rfl⟩ rfl (by omega)]
          refine ok_loaded_congr_pos _ _ _ ?_
          simp only [posAfter_append, posAfter_cons, posAfter_nil, stepPos_comma,
            stepPos_colon, stepPos_lbracket, stepPos_rbracket, stepPos_lbrace,
            stepPos_rbrace, List.nil_append]
    -- array
    · intro v rest r p hv hr hfuel
      subst hr
      cases hv with
      | empty w hw =>
        simp only [List.length_cons, List.length_append, List.length_nil] at hfuel
        simp only [array]
        simp only [List.cons_append, List.append_assoc, List.singleton_append,
          List.nil_append]
        rw [get_char_cons_ne _ '[' (w ++ (']' :: rest)) _ (by simp)]
        simp only [Res.bind_ok]
        rw [whitespace_sound w hw (']' :: rest) _ f
          (by intro y hy; simp at hy; exact hy ▸ (by decide)) (by omega)]
        simp only [Res.bind_ok, loaded_token, List.head?_cons, if_true]
        rw [get_char_none]
        simp only [List.tail_cons]
        refine ok_loaded_congr_pos _ _ _ ?_
        simp only [posAfter_append, posAfter_cons, posAfter_nil, stepPos_comma,
            stepPos_colon, stepPos_lbracket, stepPos_rbracket, stepPos_lbrace,
            stepPos_rbrace, List.nil_append]
      | nonempty es hes =>
        obtain ⟨w1, es', hesq, hw1, hes', hhd⟩ := selems_strip hes
        subst hesq
        simp only [List.length_cons, List.length_append, List.length_nil] at hfuel
        simp only [array]
        simp only [List.cons_append, List.append_assoc, List.singleton_append,
          List.nil_append]
        rw [get_char_cons_ne _ '[' (w1 ++ (es' ++ (']' :: rest))) _ (by
          have := selems_ne_nil hes'
          obtain ⟨a, t, hesq2⟩ := List.exists_cons_of_ne_nil this
          rw [hesq2]
          simp)]
        simp only [Res.bind_ok]
        rw [whitespace_sound w1 hw1 (es' ++ (']' :: rest)) _ f
          (by
            intro y hy
            have := selems_ne_nil hes'
            obtain ⟨a, t, hesq2⟩ := List.exists_cons_of_ne_nil this
            rw [hesq2] at hy
            simp at hy
            exact hy ▸ (hhd a (by rw [hesq2]; rfl)).1) (by omega)]
        simp only [Res.bind_ok]
        rw [show (if (loaded (es' ++ (']' :: rest)) (posAfter (p.1, p.2 + 1) w1)).token =
            some ']' then
            get_char none (loaded (es' ++ (']' :: rest)) (posAfter (p.1, p.2 + 1) w1))
          else
            Res.bind (value_list f (loaded (es' ++ (']' :: rest))
                (posAfter (p.1, p.2 + 1) w1)))
              fun st3 =>
                if st3.token = some ']' then get_char none st3
                else raise_error "invalid character in array"
                  ErrorCode.ARRAY_CHARACTER_ERROR st3) =
            Res.bind (value_list f (loaded (es' ++ (']' :: rest))
                (posAfter (p.1, p.2 + 1) w1)))
              (fun st3 =>
                if st3.token = some ']' then get_char none st3
                else raise_error "invalid character in array"
                  ErrorCode.ARRAY_CHARACTER_ERROR st3) from by
          rw [if_neg]
          rw [loaded_token]
          have hne := selems_ne_nil hes'
          obtain ⟨a, t, hesq2⟩ := List.exists_cons_of_ne_nil hne
          have h1 := hhd a (by rw [hesq2]; rfl)
          rw [hesq2]
          simp only [List.cons_append, List.head?_cons, Option.some.injEq]
          exact h1.2]
        rw [ihvl es' (']' :: rest) (es' ++ (']' :: rest)) (posAfter (p.1, p.2 + 1) w1)
          hes' ⟨rest, rfl⟩ rfl (by omega)]
        simp only [Res.bind_ok, loaded_token, List.head?_cons, if_true]
        rw [get_char_none]
        simp only [List.tail_cons]
        refine ok_loaded_congr_pos _ _ _ ?_
        simp only [posAfter_append, posAfter_cons, posAfter_nil, stepPos_comma,
            stepPos_colon, stepPos_lbracket, stepPos_rbracket, stepPos_lbrace,
            stepPos_rbrace, List.nil_append]
    -- json_object
    · intro v rest r p hv hr hfuel
      subst hr
      cases hv with
      | empty w hw =>
        simp only [List.length_cons, List.length_append, List.length_nil] at hfuel
        simp only [json_object]
        simp only [List.cons_append, List.append_assoc, List.singleton_append,
          List.nil_append]
        rw [get_char_cons_ne _ '{' (w ++ ('}' :: rest)) _ (by simp)]
        simp only [Res.bind_ok]
        rw [whitespace_sound w hw ('}' :: rest) _ f
          (by intro y hy; simp at hy; exact hy ▸ (by decide)) (by omega)]
        simp only [Res.bind_ok, loaded_token, List.head?_cons, if_true]
        rw [get_char_none]
        simp only [List.tail_cons]
        refine ok_loaded_congr_pos _ _ _ ?_
        simp only [posAfter_append, posAfter_cons, posAfter_nil, stepPos_comma,
            stepPos_colon, stepPos_lbracket, stepPos_rbracket, stepPos_lbrace,
            stepPos_rbrace, List.nil_append]
      | nonempty w1 ms hw1 hms =>
        obtain ⟨tlm, hmsq⟩ := smembers_head hms
        simp only [List.length_cons, List.length_append, List.length_nil] at hfuel
        simp only [json_object]
        simp only [List.cons_append, List.append_assoc, List.singleton_append,
          List.nil_append]
        rw [get_char_cons_ne _ '{' (w1 ++ (ms ++ ('}' :: rest))) _ (by
          rw [hmsq]
          simp)]
        simp only [Res.bind_ok]
        rw [whitespace_sound w1 hw1 (ms ++ ('}' :: rest)) _ f
          (by
            intro y hy
            rw [hmsq] at hy
            simp at hy
            exact hy ▸ (by decide)) (by omega)]
        simp only [Res.bind_ok]
        rw [show (if (loaded (ms ++ ('}' :: rest)) (posAfter (p.1, p.2 + 1) w1)).token =
            some '}' then
            get_char none (loaded (ms ++ ('}' :: rest)) (posAfter (p.1, p.2 + 1) w1))
          else
            Res.bind (key_value_list f (loaded (ms ++ ('}' :: rest))
                (posAfter (p.1, p.2 + 1) w1)))
              fun st3 =>
                if st3.token = some '}' then get_char none st3
                else raise_error "no closing bracket in object"
                  ErrorCode.OBJECT_CLOSE_ERROR st3) =
            Res.bind (key_value_list f (loaded (ms ++ ('}' :: rest))
                (posAfter (p.1, p.2 + 1) w1)))
              (fun st3 =>
                if st3.token = some '}' then get_char none st3
                else raise_error "no closing bracket in object"
                  ErrorCode.OBJECT_CLOSE_ERROR st3) from by
          rw [if_neg]
          rw [loaded_token, hmsq]
          simp]
        rw [ihkv ms ('}' :: rest) (ms ++ ('}' :: rest)) (posAfter (p.1, p.2 + 1) w1)
          hms ⟨rest, rfl⟩ rfl (by omega)]
        simp only [Res.bind_ok, loaded_token, List.head?_cons, if_true]
        rw [get_char_none]
        simp only [List.tail_cons]
        refine ok_loaded_congr_pos _ _ _ ?_
        simp only [posAfter_append, posAfter_cons, posAfter_nil, stepPos_comma,
            stepPos_colon, stepPos_lbracket, stepPos_rbracket, stepPos_lbrace,
            stepPos_rbrace, List.nil_append]

theorem sobj_head {v : List Char} (hs : SObj v) : ∃ tl, v = '{' :: tl := by
  cases hs with
  | empty w hw => exact ⟨_, rfl⟩
  | nonempty w1 ms hw1 hms => exact ⟨_, rfl⟩

theorem sarr_head {v : List Char} (hs : SArr v) : ∃ tl, v = '[' :: tl := by
  cases hs with
  | empty w hw => exact ⟨_, rfl⟩
  | nonempty es hes => exact ⟨_, rfl⟩

/-- A successful `open_file` loads the content and fetches the first
character: line 1, column 1, regardless of the instance's previous state. -/
theorem open_file_eq (st : St) (content : List Char) :
    open_file st content = .ok (loaded content (1, 1)) := by
  cases st with
  | mk i t l c => simp [open_file, get_char_none_mk]

/-- The parse phase of `validate_json` accepts every document made of one
valid object or array padded by whitespace, ending at end of input with the
tracked position. -/
theorem validate_parse_doc (st0 : St) (w1 v w2 : List Char) (hw1 : SWs w1)
    (hv : SObj v ∨ SArr v) (hw2 : SWs w2) :
    validate_parse st0 (w1 ++ (v ++ w2)) =
      .ok (loaded [] (posAfter (posAfter (posAfter (1, 1) w1) v) w2)) := by
  have hvhead : ∀ y, (v ++ w2).head? = some y → isWsB y = false := by
    intro y hy
    rcases hv with hs | hs
    · obtain ⟨tl, rfl⟩ := sobj_head hs
      simp at hy
      exact hy ▸ (by decide)
    · obtain ⟨tl, rfl⟩ := sarr_head hs
      simp at hy
      exact hy ▸ (by decide)
  have hlen : (w1 ++ (v ++ w2)).length = w1.length + (v.length + w2.length) := by
    simp
  simp only [validate_parse]
  rw [open_file_eq]
  simp only [Res.bind_ok]
  rw [whitespace_sound w1 hw1 (v ++ w2) (1, 1) (parse_fuel (w1 ++ (v ++ w2))) hvhead
    (by simp only [parse_fuel, hlen]; omega)]
  simp only [Res.bind_ok]
  rcases hv with hs | hs
  · obtain ⟨tl, hveq⟩ := sobj_head hs
    have hobj := (productions_sound (parse_fuel (w1 ++ (v ++ w2)))).2.2.2.2 v w2 (v ++ w2)
      (posAfter (1, 1) w1) hs rfl (by simp only [parse_fuel, hlen]; omega)
    rw [hveq] at hobj ⊢
    simp only [List.cons_append] at hobj ⊢
    simp only [loaded_token, List.head?_cons, if_true]
    rw [hobj]
    simp only [Res.bind_ok]
    rw [show (loaded w2 (posAfter (posAfter (1, 1) w1) ('{' :: tl))) =
      loaded (w2 ++ []) (posAfter (posAfter (1, 1) w1) ('{' :: tl)) from by
        rw [List.append_nil]]
    rw [whitespace_sound w2 hw2 [] _ (parse_fuel (w1 ++ ('{' :: (tl ++ w2))))
      (by intro y hy; simp at hy) (by
        simp only [parse_fuel, List.length_append, List.length_cons]
        omega)]
    simp [Res.bind, loaded]
  · obtain ⟨tl, hveq⟩ := sarr_head hs
    have harr := (productions_sound (parse_fuel (w1 ++ (v ++ w2)))).2.2.2.1 v w2 (v ++ w2)
      (posAfter (1, 1) w1) hs rfl (by simp only [parse_fuel, hlen]; omega)
    rw [hveq] at harr ⊢
    simp only [List.cons_append] at harr ⊢
    simp only [loaded_token, List.head?_cons, if_true]
    rw [if_neg (by decide)]
    rw [harr]
    simp only [Res.bind_ok]
    rw [show (loaded w2 (posAfter (posAfter (1, 1) w1) ('[' :: tl))) =
      loaded (w2 ++ []) (posAfter (posAfter (1, 1) w1) ('[' :: tl)) from by
        rw [List.append_nil]]
    rw [whitespace_sound w2 hw2 [] _ (parse_fuel (w1 ++ ('[' :: (tl ++ w2))))
      (by intro y hy; simp at hy) (by
        simp only [parse_fuel, List.length_append, List.length_cons]
        omega)]
    simp [Res.bind, loaded]

/-- The parse phase on a valid document followed by a stray character: the
trailing-content error is raised at that character's tracked position. -/
theorem validate_parse_trailing (st0 : St) (w1 v w2 : List Char) (x : Char) (xs : List Char)
    (hw1 : SWs w1) (hv : SObj v ∨ SArr v) (hw2 : SWs w2) (hx : isWsB x = false) :
    validate_parse st0 (w1 ++ (v ++ (w2 ++ (x :: xs)))) =
      .err ⟨"invalid character after end of final object or array", .EOF_CHARACTER_ERROR,
        (posAfter (posAfter (posAfter (1, 1) w1) v) w2).1,
        (posAfter (posAfter (posAfter (1, 1) w1) v) w2).2⟩ := by
  have hvhead : ∀ y, (v ++ (w2 ++ (x :: xs))).head? = some y → isWsB y = false := by
    intro y hy
    rcases hv with hs | hs
    · obtain ⟨tl, rfl⟩ := sobj_head hs
      simp at hy
      exact hy ▸ (by decide)
    · obtain ⟨tl, rfl⟩ := sarr_head hs
      simp at hy
      exact hy ▸ (by decide)
  have hxfol : ∀ y, (x :: xs).head? = some y → isWsB y = false := by
    intro y hy
    simp at hy
    exact hy ▸ hx
  have hlen : (w1 ++ (v ++ (w2 ++ (x :: xs)))).length =
      w1.length + (v.length + (w2.length + (xs.length + 1))) := by
    simp
  simp only [validate_parse]
  rw [open_file_eq]
  simp only [Res.bind_ok]
  rw [whitespace_sound w1 hw1 (v ++ (w2 ++ (x :: xs))) (1, 1)
    (parse_fuel (w1 ++ (v ++ (w2 ++ (x :: xs))))) hvhead
    (by simp only [parse_fuel, hlen]; omega)]
  simp only [Res.bind_ok]
  rcases hv with hs | hs
  · obtain ⟨tl, hveq⟩ := sobj_head hs
    have hobj := (productions_sound (parse_fuel (w1 ++ (v ++ (w2 ++ (x :: xs)))))).2.2.2.2
      v (w2 ++ (x :: xs)) (v ++ (w2 ++ (x :: xs))) (posAfter (1, 1) w1) hs rfl
      (by simp only [parse_fuel, hlen]; omega)
    rw [hveq] at hobj ⊢
    simp only [List.cons_append] at hobj ⊢
    simp only [loaded_token, List.head?_cons, if_true]
    rw [hobj]
    simp only [Res.bind_ok]
    rw [whitespace_sound w2 hw2 (x :: xs) _ (parse_fuel (w1 ++ ('{' :: (tl ++ (w2 ++ (x :: xs))))))
      hxfol (by
        simp only [parse_fuel, List.length_append, List.length_cons]
        omega)]
    simp [Res.bind, loaded, raise_error]
  · obtain ⟨tl, hveq⟩ := sarr_head hs
    have harr := (productions_sound (parse_fuel (w1 ++ (v ++ (w2 ++ (x :: xs)))))).2.2.2.1
      v (w2 ++ (x :: xs)) (v ++ (w2 ++ (x :: xs))) (posAfter (1, 1) w1) hs rfl
      (by simp only [parse_fuel, hlen]; omega)
    rw [hveq] at harr ⊢
    simp only [List.cons_append] at harr ⊢
    simp only [loaded_token, List.head?_cons, if_true]
    rw [if_neg (by decide)]
    rw [harr]
    simp only [Res.bind_ok]
    rw [whitespace_sound w2 hw2 (x :: xs) _ (parse_fuel (w1 ++ ('[' :: (tl ++ (w2 ++ (x :: xs))))))
      hxfol (by
        simp only [parse_fuel, List.length_append, List.length_cons]
        omega)]
    simp [Res.bind, loaded, raise_error]

/-- The parse phase on input whose first significant character is neither `{`
nor `[` (or which is all whitespace): the invalid-start error, at that
character's tracked position. -/
theorem validate_parse_invalid_start (st0 : St) (w rest : List Char) (hw : SWs w)
    (hrest : ∀ y, rest.head? = some y → isWsB y = false)
    (h1 : rest.head? ≠ some '{') (h2 : rest.head? ≠ some '[') :
    validate_parse st0 (w ++ rest) =
      .err ⟨"not object or array", .INVALID_START_ERROR,
        (posAfter (1, 1) w).1, (posAfter (1, 1) w).2⟩ := by
  simp only [validate_parse]
  rw [open_file_eq]
  simp only [Res.bind_ok]
  rw [whitespace_sound w hw rest (1, 1) (parse_fuel (w ++ rest)) hrest
    (by simp only [parse_fuel, List.length_append]; omega)]
  simp only [Res.bind_ok, loaded_token]
  rw [if_neg h1, if_neg h2]
  simp [Res.bind, loaded, raise_error]

/-- `validate_json` wraps the parse phase; on success the file is closed. -/
theorem validate_json_ok {st0 : St} {content : List Char} {st' : St}
    (h : validate_parse st0 content = .ok st') :
    validate_json st0 content = (.ok st', false) := by
  simp [validate_json, h, close_file]

/-- `validate_json` wraps the parse phase; on a raised error the file remains
open. -/
theorem validate_json_err {st0 : St} {content : List Char} {e : Err}
    (h : validate_parse st0 content = .err e) :
    validate_json st0 content = (.err e, true) := by
  simp [validate_json, h]

/-! ## Claim theorems -/

/-- C1 (counterexample): `['5']` is a valid JSON text per RFC 8259 (a JSON
text is `ws value ws`, any value), yet `validate_json` raises the
invalid-start error on it, so the claim as stated is false. -/
theorem claim_c1_counterexample :
    IsJsonTextRFC ['5'] ∧
    (validate_json initState ['5']).1 =
      .err ⟨"not object or array", .INVALID_START_ERROR, 1, 1⟩ := by
  constructor
  · exact ⟨[], ['5'], [], SWs.nil,
      SVal.num _ (SNum.mk [] ['5'] [] [] (Or.inl rfl)
        (SIntPart.nz '5' [] (by decide) (by decide) (by intro x hx; simp at hx))
        SFracPart.none SExpPart.none),
      SWs.nil, rfl⟩
  · decide

/-- C1 (amended): for every input text that is valid JSON per RFC 8259 and
whose top-level value is an object or an array, `validate_json` succeeds. -/
theorem claim_c1_rfc_doc_accepted (st0 : St) (w1 v w2 : List Char)
    (hw1 : SWs w1) (hv : SObj v ∨ SArr v) (hw2 : SWs w2) :
    ((validate_json st0 (w1 ++ (v ++ w2))).1).isOk = true := by
  rw [validate_json_ok (validate_parse_doc st0 w1 v w2 hw1 hv hw2)]
  rfl

/-- C1 (witness): the amended theorem applied to the document `{}`. -/
theorem claim_c1_witness :
    ((validate_json initState ['{', '}']).1).isOk = true :=
  claim_c1_rfc_doc_accepted initState [] ['{', '}'] []
    SWs.nil (Or.inl (SObj.empty [] SWs.nil)) SWs.nil

/-- C2 (counterexample): on input `x` the run raises the invalid-start error
and exits with the file still open (second component `true`), so the file is
not released on every exit path. -/
theorem claim_c2_counterexample :
    validate_json initState ['x'] =
      (.err ⟨"not object or array", .INVALID_START_ERROR, 1, 1⟩, true) := by
  decide

/-- C2 (amended): `close_file` runs exactly on the success path — a run that
returns normally exits with the file closed, and a run that raises an error
propagates it with the file still open. -/
theorem claim_c2_resource_release (st0 : St) (content : List Char) :
    (((validate_json st0 content).1).isOk = true → (validate_json st0 content).2 = false) ∧
    (∀ e, (validate_json st0 content).1 = .err e → (validate_json st0 content).2 = true) := by
  cases hp : validate_parse st0 content with
  | ok st' =>
    rw [validate_json_ok hp]
    exact ⟨fun _ => rfl, fun e he => by simp at he⟩
  | err e0 =>
    rw [validate_json_err hp]
    exact ⟨fun h => by simp [Res.isOk] at h, fun e _ => rfl⟩
  | out =>
    have hout : validate_json st0 content = (.out, true) := by
      simp [validate_json, hp]
    rw [hout]
    exact ⟨fun h => by simp [Res.isOk] at h, fun e he => by simp at he⟩

/-- C2 (witness): the amended theorem applied to a succeeding run (`{}`,
file closed) and to a failing run (`x`, file left open). -/
theorem claim_c2_witness :
    (validate_json initState ['{', '}']).2 = false ∧
    (validate_json initState ['x']).2 = true :=
  ⟨(claim_c2_resource_release initState ['{', '}']).1 (by decide),
   (claim_c2_resource_release initState ['x']).2
     ⟨"not object or array", .INVALID_START_ERROR, 1, 1⟩ (by decide)⟩

/-- C3 (counterexample): on input `" 5"` (a space, then a bare scalar) the
invalid-start error is reported at column 2 — the first significant
character's own column — not at line 1, column 1 as the claim states for
every such input. -/
theorem claim_c3_counterexample :
    (validate_json initState [' ', '5']).1 =
      .err ⟨"not object or array", .INVALID_START_ERROR, 1, 2⟩ ∧
    ((validate_json initState [' ', '5']).1).errPos? ≠ some (1, 1) := by
  constructor
  · decide
  · decide

/-- C3 (amended): an input whose first significant (post-whitespace)
character is neither `{` nor `[` — including empty and all-whitespace
input — fails with the invalid-start kind at that position (line 1, column 1
exactly when there is no leading whitespace); and one complete top-level
object or array followed, possibly after whitespace, by a stray
non-whitespace character fails with the trailing-content kind at that
character's tracked position. -/
theorem claim_c3_start_and_trailing :
    (∀ (st0 : St) (w rest : List Char), SWs w →
      (∀ y, rest.head? = some y → isWsB y = false) →
      rest.head? ≠ some '{' → rest.head? ≠ some '[' →
      (validate_json st0 (w ++ rest)).1 =
        .err ⟨"not object or array", .INVALID_START_ERROR,
          (posAfter (1, 1) w).1, (posAfter (1, 1) w).2⟩) ∧
    (∀ (st0 : St) (w1 v w2 : List Char) (x : Char) (xs : List Char),
      SWs w1 → (SObj v ∨ SArr v) → SWs w2 → isWsB x = false →
      (validate_json st0 (w1 ++ (v ++ (w2 ++ (x :: xs))))).1 =
        .err ⟨"invalid character after end of final object or array", .EOF_CHARACTER_ERROR,
          (posAfter (posAfter (posAfter (1, 1) w1) v) w2).1,
          (posAfter (posAfter (posAfter (1, 1) w1) v) w2).2⟩) := by
  constructor
  · intro st0 w rest hw hrest h1 h2
    rw [validate_json_err (validate_parse_invalid_start st0 w rest hw hrest h1 h2)]
  · intro st0 w1 v w2 x xs hw1 hv hw2 hx
    rw [validate_json_err (validate_parse_trailing st0 w1 v w2 x xs hw1 hv hw2 hx)]

/-- C3 (witness): the amended theorem applied to the bare scalar `5` (invalid
start at line 1 column 1) and to `{}x` (trailing content at column 3). -/
theorem claim_c3_witness :
    (validate_json initState ['5']).1 =
      .err ⟨"not object or array", .INVALID_START_ERROR, 1, 1⟩ ∧
    (validate_json initState ['{', '}', 'x']).1 =
      .err ⟨"invalid character after end of final object or array",
        .EOF_CHARACTER_ERROR, 1, 3⟩ := by
  constructor
  · exact claim_c3_start_and_trailing.1 initState [] ['5'] SWs.nil
      (by intro y hy; simp at hy; exact hy ▸ (by decide)) (by decide) (by decide)
  · exact claim_c3_start_and_trailing.2 initState [] ['{', '}'] [] 'x' []
      SWs.nil (Or.inl (SObj.empty [] SWs.nil)) SWs.nil (by decide)

/-- C4 (confirmed): every fetch increments the column counter exactly once,
before the fetched character is inspected — an end-of-input error raised by
the fetch itself already carries the incremented column and the current
line — and every raised error carries the current position; skipping a space
costs one column, a tab advances the following character's column by 4 in
total, a carriage return resets the column to 1, and a line feed advances
the line and resets the column to 1. -/
theorem claim_c4_position_invariant :
    (∀ e (st st' : St), get_char e st = .ok st' → st'.column = st.column + 1) ∧
    (∀ (m : String) (code : ErrorCode) (st : St) (err : Err),
      get_char (some (m, code)) st = .err err →
      err.column = st.column + 1 ∧ err.line = st.line) ∧
    (∀ (m : String) (code : ErrorCode) (st : St),
      raise_error m code st = .err ⟨m, code, st.line, st.column⟩) ∧
    (∀ fl tl p, whitespace (fl + 1) (loaded (' ' :: tl) p) =
      whitespace fl (loaded tl (p.1, p.2 + 1))) ∧
    (∀ fl tl p, whitespace (fl + 1) (loaded ('\t' :: tl) p) =
      whitespace fl (loaded tl (p.1, p.2 + 4))) ∧
    (∀ fl tl p, whitespace (fl + 1) (loaded ('\r' :: tl) p) =
      whitespace fl (loaded tl (p.1, 1))) ∧
    (∀ fl tl p, whitespace (fl + 1) (loaded ('\n' :: tl) p) =
      whitespace fl (loaded tl (p.1 + 1, 1))) := by
  refine ⟨?_, ?_, fun m code st => rfl, ws_step_space, ws_step_tab, ws_step_cr, ws_step_lf⟩
  · intro e st st' h
    cases st with
    | mk i t l c =>
      cases i with
      | nil =>
        cases e with
        | none =>
          simp [get_char] at h
          rw [← h]
        | some mc =>
          obtain ⟨m, code⟩ := mc
          simp [get_char, raise_error] at h
      | cons a r =>
        simp [get_char] at h
        rw [← h]
  · intro m code st err h
    cases st with
    | mk i t l c =>
      cases i with
      | nil =>
        simp [get_char, raise_error] at h
        rw [← h]
        exact ⟨rfl, rfl⟩
      | cons a r =>
        simp [get_char] at h

/-- C4 (witness): the invariant applied to a concrete successful fetch and a
concrete end-of-input fetch with an error policy. -/
theorem claim_c4_witness :
    (loaded ['b'] (1, 2)).column = (loaded ['a', 'b'] (1, 1)).column + 1 ∧
    ((⟨"m", .STRING_HEX_ERROR, 3, 8⟩ : Err).column = (loaded [] (3, 7)).column + 1 ∧
      (⟨"m", .STRING_HEX_ERROR, 3, 8⟩ : Err).line = (loaded [] (3, 7)).line) :=
  ⟨claim_c4_position_invariant.1 none (loaded ['a', 'b'] (1, 1)) (loaded ['b'] (1, 2))
      (by decide),
   claim_c4_position_invariant.2.1 "m" .STRING_HEX_ERROR (loaded [] (3, 7))
      ⟨"m", .STRING_HEX_ERROR, 3, 8⟩ (by decide)⟩

/-- C5 (confirmed): in the array production a comma where a value is expected
fails with the value-character kind at the comma's own position; a `]` where
a value is expected (as right after a comma) fails with the value-character
kind at the `]`'s position; end of input right after a comma fails with the
array-EOF kind one column later; and concretely `[1,2,]` fails with the
value-character kind at line 1, column 6 (the `]`'s column) while `[1,` fails
with the array-EOF kind. -/
theorem claim_c5_array_comma :
    (∀ (fl : Nat) (tl : List Char) (p : Nat × Nat),
      value (fl + 2) (loaded (',' :: tl) p) =
        .err ⟨"invalid character in value", .VALUE_CHARACTER_ERROR, p.1, p.2⟩) ∧
    (∀ (fl : Nat) (tl : List Char) (p : Nat × Nat),
      value (fl + 2) (loaded (']' :: tl) p) =
        .err ⟨"invalid character in value", .VALUE_CHARACTER_ERROR, p.1, p.2⟩) ∧
    (∀ (fl : Nat) (st st' : St), value fl st = .ok st' → st'.token = some ',' →
      st'.input = [] →
      value_list (fl + 1) st =
        .err ⟨"end of file reached in array", .ARRAY_EOF_ERROR, st'.line, st'.column + 1⟩) ∧
    ((validate_json initState ['[', '1', ',', '2', ',', ']']).1 =
      .err ⟨"invalid character in value", .VALUE_CHARACTER_ERROR, 1, 6⟩) ∧
    ((validate_json initState ['[', '1', ',']).1 =
      .err ⟨"end of file reached in array", .ARRAY_EOF_ERROR, 1, 4⟩) := by
  refine ⟨?_, ?_, ?_, by decide, by decide⟩
  · intro fl tl p
    simp [value, whitespace, Res.bind, loaded_eq_mk, tokenIsDigit, raise_error]
  · intro fl tl p
    simp [value, whitespace, Res.bind, loaded_eq_mk, tokenIsDigit, raise_error]
  · intro fl st st' h h2 h3
    simp only [value_list]
    rw [h]
    simp only [Res.bind_ok, h2, if_true]
    cases st' with
    | mk i t l c =>
      simp only at h2 h3
      subst h2 h3
      simp [get_char, raise_error, Res.bind]

/-- C5 (witness): the three general clauses applied at concrete inputs — a
bare comma, a bare `]`, and the list `1,` ending right after its comma. -/
theorem claim_c5_witness :
    value 2 (loaded [','] (1, 1)) =
      .err ⟨"invalid character in value", .VALUE_CHARACTER_ERROR, 1, 1⟩ ∧
    value 2 (loaded [']'] (1, 1)) =
      .err ⟨"invalid character in value", .VALUE_CHARACTER_ERROR, 1, 1⟩ ∧
    value_list 10 (loaded ['1', ','] (1, 1)) =
      .err ⟨"end of file reached in array", .ARRAY_EOF_ERROR,
        (loaded [','] (1, 2)).line, (loaded [','] (1, 2)).column + 1⟩ :=
  ⟨claim_c5_array_comma.1 0 [] (1, 1),
   claim_c5_array_comma.2.1 0 [] (1, 1),
   claim_c5_array_comma.2.2.1 9 (loaded ['1', ','] (1, 1)) (loaded [','] (1, 2))
     (by decide) (by decide) (by decide)⟩

/-- C6 (confirmed): in the number production a `0` immediately followed by a
digit fails with the leading-zero kind at the second digit's column, and
concretely the document `{"k":01}` fails with the leading-zero kind at line
1, column 7 — the column of the `1` that follows the `0`. -/
theorem claim_c6_leading_zero :
    (∀ (fl : Nat) (d : Char) (tl : List Char) (l c : Nat), Char.isDigit d = true →
      number fl (loaded ('0' :: (d :: tl)) (l, c)) =
        .err ⟨"leading 0 in number", .NUMBER_LEADING_ZERO_ERROR, l, c + 1⟩) ∧
    ((validate_json initState ['{', '"', 'k', '"', ':', '0', '1', '}']).1 =
      .err ⟨"leading 0 in number", .NUMBER_LEADING_ZERO_ERROR, 1, 7⟩) := by
  refine ⟨?_, by decide⟩
  intro fl d tl l c hd
  simp [number, get_char_mk, Res.bind, loaded_eq_mk, tokenIsDigit, hd, raise_error]

/-- C6 (witness): the general clause applied to the number text `01`. -/
theorem claim_c6_witness :
    number 0 (loaded ['0', '1'] (1, 1)) =
      .err ⟨"leading 0 in number", .NUMBER_LEADING_ZERO_ERROR, 1, 2⟩ :=
  claim_c6_leading_zero.1 0 '1' [] 1 1 (by decide)

/-- C7 (confirmed): after a backslash exactly the eight characters
`" \ / b f n r t` are accepted as single-character escapes; any other
character except `u` fails with the string-escape kind at its own column;
`\u` followed by four hex digits is accepted; a non-hex character or end of
input inside the four hex digits fails with the string-hex kind at the
offending position, each digit being checked individually; a raw tab or raw
line feed inside a string fails with the string-character kind at its own
column; and the escaped forms `\t` and `\n` make the document validate. -/
theorem claim_c7_string_escapes :
    (∀ (ec : Char) (tl : List Char) (p : Nat × Nat), ec ∈ escChars →
      string_backslash (loaded ('\\' :: (ec :: tl)) p) =
        .ok (loaded (ec :: tl) (p.1, p.2 + 1))) ∧
    (∀ (ec : Char) (tl : List Char) (p : Nat × Nat), ec ∉ escChars → ec ≠ 'u' →
      string_backslash (loaded ('\\' :: (ec :: tl)) p) =
        .err ⟨"invalid escape character in string", .STRING_ESCAPE_ERROR, p.1, p.2 + 1⟩) ∧
    (∀ (h1 h2 h3 h4 : Char) (tl : List Char) (p : Nat × Nat),
      h1 ∈ specHexChars → h2 ∈ specHexChars → h3 ∈ specHexChars → h4 ∈ specHexChars →
      string_backslash (loaded ('\\' :: ('u' :: (h1 :: (h2 :: (h3 :: (h4 :: tl)))))) p) =
        .ok (loaded (h4 :: tl) (p.1, p.2 + 5))) ∧
    (∀ (pre : List Char) (x : Char) (tl : List Char) (p : Nat × Nat),
      pre.length ≤ 3 → (∀ h ∈ pre, h ∈ specHexChars) → x ∉ hex_char →
      string_backslash (loaded ('\\' :: ('u' :: (pre ++ (x :: tl)))) p) =
        .err ⟨"invalid hex digit after \\u in string", .STRING_HEX_ERROR,
          p.1, p.2 + 2 + pre.length⟩) ∧
    (∀ (pre : List Char) (p : Nat × Nat),
      pre.length ≤ 3 → (∀ h ∈ pre, h ∈ specHexChars) →
      string_backslash (loaded ('\\' :: ('u' :: pre)) p) =
        .err ⟨"end of file reached in string hex, must have 4 hex digits after \\u",
          .STRING_HEX_ERROR, p.1, p.2 + 2 + pre.length⟩) ∧
    (∀ (fl : Nat) (x : Char) (tl : List Char) (p : Nat × Nat),
      string_char (fl + 1) (loaded (x :: ('\t' :: tl)) p) =
        .err ⟨"invalid tab character in string", .STRING_CHARACTER_ERROR, p.1, p.2 + 1⟩) ∧
    (∀ (fl : Nat) (x : Char) (tl : List Char) (p : Nat × Nat),
      string_char (fl + 1) (loaded (x :: ('\n' :: tl)) p) =
        .err ⟨"invalid newline character in string", .STRING_CHARACTER_ERROR, p.1, p.2 + 1⟩) ∧
    ((validate_json initState ['[', '"', 'a', '\\', 't', '"', ']']).1.isOk = true) ∧
    ((validate_json initState ['[', '"', 'a', '\\', 'n', '"', ']']).1.isOk = true) := by
  refine ⟨?_, ?_, ?_, ?_, ?_, ?_, ?_, by decide, by decide⟩
  · intro ec tl p hmem
    exact string_backslash_esc ec hmem tl p
  · intro ec tl p hmem hu
    have h8 : ¬(ec = '"' ∨ ec = '\\' ∨ ec = '/' ∨ ec = 'b' ∨ ec = 'f' ∨ ec = 'n' ∨
        ec = 'r' ∨ ec = 't') := by
      simpa [escChars] using hmem
    simp [string_backslash, get_char_mk, Res.bind, loaded_eq_mk, raise_error, hu] at h8 ⊢
    simp [h8.1, h8.2.1, h8.2.2.1, h8.2.2.2.1, h8.2.2.2.2.1, h8.2.2.2.2.2.1,
      h8.2.2.2.2.2.2.1, h8.2.2.2.2.2.2.2]
  · intro h1 h2 h3 h4 tl p m1 m2 m3 m4
    exact string_backslash_u h1 h2 h3 h4 m1 m2 m3 m4 tl p
  · intro pre x tl p hlen hpre hx
    rcases pre with _ | ⟨a, _ | ⟨b, _ | ⟨c, _ | ⟨d, tl'⟩⟩⟩⟩
    · simp [string_backslash, string_hex, string_hex_loop, get_char_mk, Res.bind,
        loaded_eq_mk, raise_error, hx]
    · have ha := hex_bridge (hpre a (by simp))
      simp [string_backslash, string_hex, string_hex_loop, get_char_mk, Res.bind,
        loaded_eq_mk, raise_error, hx, ha]
    · have ha := hex_bridge (hpre a (by simp))
      have hb := hex_bridge (hpre b (by simp))
      simp [string_backslash, string_hex, string_hex_loop, get_char_mk, Res.bind,
        loaded_eq_mk, raise_error, hx, ha, hb]
    · have ha := hex_bridge (hpre a (by simp))
      have hb := hex_bridge (hpre b (by simp))
      have hc := hex_bridge (hpre c (by simp))
      simp [string_backslash, string_hex, string_hex_loop, get_char_mk, Res.bind,
        loaded_eq_mk, raise_error, hx, ha, hb, hc]
    · simp at hlen
  · intro pre p hlen hpre
    rcases pre with _ | ⟨a, _ | ⟨b, _ | ⟨c, _ | ⟨d, tl'⟩⟩⟩⟩
    · simp [string_backslash, string_hex, string_hex_loop, get_char_mk, get_char_mk_eof,
        Res.bind, loaded_eq_mk, raise_error]
    · have ha := hex_bridge (hpre a (by simp))
      simp [string_backslash, string_hex, string_hex_loop, get_char_mk, get_char_mk_eof,
        Res.bind, loaded_eq_mk, raise_error, ha]
    · have ha := hex_bridge (hpre a (by simp))
      have hb := hex_bridge (hpre b (by simp))
      simp [string_backslash, string_hex, string_hex_loop, get_char_mk, get_char_mk_eof,
        Res.bind, loaded_eq_mk, raise_error, ha, hb]
    · have ha := hex_bridge (hpre a (by simp))
      have hb := hex_bridge (hpre b (by simp))
      have hc := hex_bridge (hpre c (by simp))
      simp [string_backslash, string_hex, string_hex_loop, get_char_mk, get_char_mk_eof,
        Res.bind, loaded_eq_mk, raise_error, ha, hb, hc]
    · simp at hlen
  · intro fl x tl p
    simp [string_char, get_char_mk, Res.bind, loaded_eq_mk, raise_error]
  · intro fl x tl p
    simp [string_char, get_char_mk, Res.bind, loaded_eq_mk, raise_error]

/-- C7 (witness): the escape rules applied at concrete inputs — a valid `\t`
escape, an invalid `\x` escape, a bad third hex digit after `\u12`, and a raw
tab after the opening quote. -/
theorem claim_c7_witness :
    string_backslash (loaded ['\\', 't'] (1, 1)) = .ok (loaded ['t'] (1, 2)) ∧
    string_backslash (loaded ['\\', 'x'] (1, 1)) =
      .err ⟨"invalid escape character in string", .STRING_ESCAPE_ERROR, 1, 2⟩ ∧
    string_backslash (loaded ['\\', 'u', '1', '2', 'g'] (1, 1)) =
      .err ⟨"invalid hex digit after \\u in string", .STRING_HEX_ERROR, 1, 5⟩ ∧
    string_char 1 (loaded ['"', '\t'] (1, 1)) =
      .err ⟨"invalid tab character in string", .STRING_CHARACTER_ERROR, 1, 2⟩ :=
  ⟨claim_c7_string_escapes.1 't' [] (1, 1) (by decide),
   claim_c7_string_escapes.2.1 'x' [] (1, 1) (by decide) (by decide),
   claim_c7_string_escapes.2.2.2.1 ['1', '2'] 'g' [] (1, 1) (by decide)
     (by intro h hh; fin_cases hh <;> decide) (by decide),
   claim_c7_string_escapes.2.2.2.2.2.1 0 '"' [] (1, 1)⟩

/-- C8 (counterexample): the eight-character document `"ab\xcd"` starts with
a quote, so `validate_json` rejects it with the invalid-start kind at line 1,
column 1 before the string production ever runs — not with the string-escape
kind at column 5 as the claim states. -/
theorem claim_c8_counterexample :
    (validate_json initState ['"', 'a', 'b', '\\', 'x', 'c', 'd', '"']).1 =
      .err ⟨"not object or array", .INVALID_START_ERROR, 1, 1⟩ ∧
    ((validate_json initState ['"', 'a', 'b', '\\', 'x', 'c', 'd', '"']).1).errCode? ≠
      some .STRING_ESCAPE_ERROR := by
  constructor
  · decide
  · decide

/-- C8 (amended): as a top-level document `"ab\xcd"` fails with the
invalid-start kind at line 1, column 1; embedded where a string is legal, as
in `["ab\xcd"]`, the same text fails with the string-escape kind at the
column of the `x` (column 6 there, since the string starts one column
later). -/
theorem claim_c8_escape_scenario :
    (validate_json initState ['"', 'a', 'b', '\\', 'x', 'c', 'd', '"']).1 =
      .err ⟨"not object or array", .INVALID_START_ERROR, 1, 1⟩ ∧
    (validate_json initState ['[', '"', 'a', 'b', '\\', 'x', 'c', 'd', '"', ']']).1 =
      .err ⟨"invalid escape character in string", .STRING_ESCAPE_ERROR, 1, 6⟩ := by
  constructor
  · decide
  · decide

/-- C9 (confirmed): the outcome of `validate_json` depends only on the file
content — `open_file` overwrites every instance field — so running it twice
on the same content gives identical results, whatever state an earlier run
left behind on the instance. -/
theorem claim_c9_idempotence (st1 st2 : St) (content : List Char) :
    validate_json st1 content = validate_json st2 content := by
  have h : validate_parse st1 content = validate_parse st2 content := by
    simp only [validate_parse, open_file_eq]
  simp only [validate_json, h]

/-- C10 (confirmed): inside a string a raw character raises the
string-character kind exactly when it is a tab or a line feed; any other raw
character — including a raw carriage return or U+0001 — is simply consumed,
and documents containing them validate. -/
theorem claim_c10_raw_control :
    (∀ (fl : Nat) (x : Char) (tl : List Char) (p : Nat × Nat),
      string_char (fl + 1) (loaded (x :: ('\t' :: tl)) p) =
        .err ⟨"invalid tab character in string", .STRING_CHARACTER_ERROR, p.1, p.2 + 1⟩) ∧
    (∀ (fl : Nat) (x : Char) (tl : List Char) (p : Nat × Nat),
      string_char (fl + 1) (loaded (x :: ('\n' :: tl)) p) =
        .err ⟨"invalid newline character in string", .STRING_CHARACTER_ERROR, p.1, p.2 + 1⟩) ∧
    (∀ (fl : Nat) (x ch : Char) (tl : List Char) (p : Nat × Nat),
      ch ≠ '\t' → ch ≠ '\n' → ch ≠ '\\' → ch ≠ '"' →
      string_char (fl + 1) (loaded (x :: (ch :: tl)) p) =
        string_char fl (loaded (ch :: tl) (p.1, p.2 + 1))) ∧
    ((validate_json initState ['[', '"', 'a', '\r', 'b', '"', ']']).1.isOk = true) ∧
    ((validate_json initState ['[', '"', Char.ofNat 1, '"', ']']).1.isOk = true) := by
    refine ⟨?_, ?_, ?_, by decide, by decide⟩
    · intro fl x tl p
      simp [string_char, get_char_mk, Res.bind, loaded_eq_mk, raise_error]
    · intro fl x tl p
      simp [string_char, get_char_mk, Res.bind, loaded_eq_mk, raise_error]
    · intro fl x ch tl p h1 h2 h3 h4
      simp [string_char, get_char_mk, Res.bind, loaded_eq_mk, h1, h2, h3, h4]

/-- C10 (witness): the rules applied at concrete characters — a raw line feed
raises the string-character error, while a raw carriage return is stepped
over without an error. -/
theorem claim_c10_witness :
    string_char 1 (loaded ['"', '\n'] (1, 1)) =
      .err ⟨"invalid newline character in string", .STRING_CHARACTER_ERROR, 1, 2⟩ ∧
    string_char 3 (loaded ['"', '\r', '"'] (1, 1)) =
      string_char 2 (loaded ['\r', '"'] (1, 2)) :=
  ⟨claim_c10_raw_control.2.1 0 '"' [] (1, 1),
   claim_c10_raw_control.2.2.1 2 '"' '\r' ['"'] (1, 1)
     (by decide) (by decide) (by decide) (by decide)⟩

end JsonValidator
